import Mathlib

/-!
Verification of the dht-lookup repository's specification against its source.

The development shallowly embeds the repository's Python code in Lean:
pure functions become Lean functions, stateful code becomes explicit state
passing on record types, Python integers become `Nat` with explicit
`% 2 ^ 160` where the code reduces modulo the hash space, and `None`
becomes `Option`.  Python string keys are represented by `Nat`; the SHA-1
hash `hash_key` is kept abstract as a parameter `hashKey : Nat → Nat`
(the code only relies on it being a deterministic function into the
identifier space).
-/

namespace DHT

/-! ## Configuration constants (src/config.py) -/

/-- Hash bit size m (config.py line 44: `HASH_BIT_SIZE = 160`). -/
def HASH_BIT_SIZE : Nat := 160

/-- Hash space size 2^m (config.py line 47: `HASH_SPACE_SIZE = 2 ** HASH_BIT_SIZE`). -/
def HASH_SPACE_SIZE : Nat := 2 ^ HASH_BIT_SIZE

/-- Finger table size (config.py line 59: `CHORD_FINGER_TABLE_SIZE = 20`). -/
def CHORD_FINGER_TABLE_SIZE : Nat := 20

/-- Bits per Pastry digit (config.py line 67: `PASTRY_B = 4`). -/
def PASTRY_B : Nat := 4

/-- Pastry base 2^B (config.py line 68). -/
def PASTRY_BASE : Nat := 2 ^ PASTRY_B

/-- Leaf set size per side (config.py line 77: `PASTRY_LEAF_SIZE = 8`). -/
def PASTRY_LEAF_SIZE : Nat := 8

/-- B+ tree order (config.py line 86: `BPLUS_TREE_ORDER = 32`). -/
def BPLUS_TREE_ORDER : Nat := 32

/-! ## Ring utilities (src/src/common/hashing.py) -/

/-- Embedding of `in_range(value, start, end, inclusive_start, inclusive_end)`
(hashing.py lines 67-117).  All three ring positions are first normalized
modulo the hash space; the `start == end` case is handled first, then the
endpoint checks, then the wrap-around interval test. -/
def inRange (value a b : Nat) (inclusiveStart inclusiveEnd : Bool) : Bool :=
  let v := value % HASH_SPACE_SIZE
  let s := a % HASH_SPACE_SIZE
  let e := b % HASH_SPACE_SIZE
  if s = e then
    if inclusiveStart && inclusiveEnd then v = s else true
  else if v = s then inclusiveStart
  else if v = e then inclusiveEnd
  else if s < e then decide (s < v) && decide (v < e)
  else decide (v > s) || decide (v < e)

/-- Embedding of `distance(from_id, to_id)` (hashing.py lines 120-148):
clockwise ring distance. -/
def distance (fromId toId : Nat) : Nat :=
  let f := fromId % HASH_SPACE_SIZE
  let t := toId % HASH_SPACE_SIZE
  if f ≤ t then t - f else HASH_SPACE_SIZE - f + t

/-! ## Chord finger table (src/src/dht/chord/finger_table.py) -/

/-- One finger table entry (finger_table.py lines 20-42): a start position and
an optional node, here represented by the node's identifier. -/
structure FingerTableEntry where
  start : Nat
  node : Option Nat
deriving DecidableEq

/-- Embedding of `FingerTable.__init__` (finger_table.py lines 59-74): `size`
defaults to `config.CHORD_FINGER_TABLE_SIZE`, and entry i is created with
`start = (node_id + (1 << i)) % config.HASH_SPACE_SIZE` and no node. -/
def FingerTable.init (nodeId : Nat) (size : Option Nat) : List FingerTableEntry :=
  let sz := size.getD CHORD_FINGER_TABLE_SIZE
  (List.range sz).map fun i => ⟨(nodeId + 2 ^ i) % HASH_SPACE_SIZE, none⟩

/-- Embedding of `FingerTable.get_successor` (finger_table.py lines 135-145):
`self._entries[0].node if self._entries else None`. -/
def FingerTable.getSuccessor (entries : List FingerTableEntry) : Option Nat :=
  match entries with
  | [] => none
  | e :: _ => e.node

/-! ## Chord node state and routing (src/src/dht/chord/node.py)

A Chord network is a list of per-node states; nodes reference each other by
`nodeId` (the code compares and hashes nodes by `node_id`, base_node.py
lines 312-320).  Each state carries the finger-table nodes (entry 0 is the
successor, node.py lines 64-72), the predecessor and the local `_data`
dictionary as an association list. -/

structure ChordNodeSt where
  nodeId : Nat
  fingers : List (Option Nat)
  pred : Option Nat
  data : List (Nat × Nat)
deriving DecidableEq

/-- The successor is finger-table entry 0 (node.py lines 64-67 via
finger_table.py `get_successor`). -/
def ChordNodeSt.succ (n : ChordNodeSt) : Option Nat := n.fingers.headD none

/-- Resolve a node identifier in the network, mirroring the object references
the Python code follows. -/
def findNode (net : List ChordNodeSt) (id : Nat) : Option ChordNodeSt :=
  net.find? (fun n => n.nodeId == id)

/-- Embedding of `FingerTable.find_closest_preceding_node` wrapped by
`ChordNode._closest_preceding_finger` (finger_table.py lines 157-190,
node.py lines 335-346): scan fingers from highest index to lowest, return the
first finger node whose id is in `(self, target)` with both ends exclusive;
with no such finger the node itself is returned. -/
def closestPrecedingFinger (n : ChordNodeSt) (targetId : Nat) : Nat :=
  match n.fingers.reverse.findSome? (fun f =>
      match f with
      | none => none
      | some fid =>
        if inRange fid n.nodeId targetId false false then some fid else none) with
  | some fid => fid
  | none => n.nodeId

/-- Embedding of `ChordNode._find_predecessor_with_hops` (node.py lines
292-333).  The Python `while True` loop carries no iteration cap; it is given
here as a fueled recursion, `none` standing for fuel exhaustion (the Python
loop still running).  Loop exits: missing successor, single-node network,
`key_id ∈ (current, successor]`, and no routing progress. -/
def findPredecessorWithHops (net : List ChordNodeSt) :
    Nat → Nat → Nat → Nat → Option (Nat × Nat)
  | 0, _, _, _ => none
  | fuel + 1, currentId, keyId, hops =>
    match findNode net currentId with
    | none => none
    | some cur =>
      match cur.succ with
      | none => some (currentId, hops)
      | some succId =>
        if currentId = succId then some (currentId, hops)
        else if inRange keyId currentId succId false true then some (currentId, hops)
        else
          let nextId := closestPrecedingFinger cur keyId
          if nextId = currentId then some (currentId, hops)
          else findPredecessorWithHops net fuel nextId keyId (hops + 1)

/-- Embedding of `ChordNode.find_successor` (node.py lines 261-277): find the
predecessor, then return its successor when it has one, with the accumulated
hop count. -/
def findSuccessorWithHops (net : List ChordNodeSt) (fuel selfId keyId : Nat) :
    Option (Nat × Nat) :=
  match findPredecessorWithHops net fuel selfId keyId 0 with
  | none => none
  | some (pid, hops) =>
    match findNode net pid with
    | none => none
    | some pn =>
      match pn.succ with
      | some sid => some (sid, hops)
      | none => some (pid, hops)

/-- Embedding of the outcome of `ChordNode.insert` (node.py lines 348-363):
hash the key, route with `find_successor`, store at the responsible node and
return `(True, hops)` — with NO extra hop for the delivery.  The responsible
node's id is also returned so the hop-counting claim can refer to it. -/
def chordInsertOutcome (hashKey : Nat → Nat) (net : List ChordNodeSt)
    (fuel selfId key : Nat) : Option (Bool × Nat × Nat) :=
  match findSuccessorWithHops net fuel selfId (hashKey key) with
  | none => none
  | some (rid, hops) => some (true, hops, rid)

/-- Embedding of the hop count returned by `BaseNode.insert` (base_node.py
lines 138-164), the implementation Pastry inherits: after routing, one more
hop is added when the responsible node differs from the issuing node. -/
def baseInsertHops (selfId respId hops : Nat) : Nat :=
  if respId ≠ selfId then hops + 1 else hops

/-- Two-node Chord network in steady state: nodes 10 and 20, each the other's
successor and predecessor, no stored data. -/
def c2net : List ChordNodeSt :=
  [⟨10, [some 20], some 20, []⟩, ⟨20, [some 10], some 10, []⟩]

/-- Malformed 162-node Chord state used against the routing-cap claim: node i
(1 ≤ i ≤ 161) has every finger (and hence its successor) pointing at node
i+1, and node 162 has an empty finger table.  Each node's finger table has
the configured 20 entries. -/
def capNet : List ChordNodeSt :=
  (List.range 162).map fun j =>
    ⟨j + 1,
     if j + 1 = 162 then List.replicate 20 none else List.replicate 20 (some (j + 2)),
     none, []⟩

/-- Local data of the node with the given id, as the network-level view used
to state the join-migration claim. -/
def dataOf (net : List ChordNodeSt) (id : Nat) : List (Nat × Nat) :=
  ((net.find? (fun n => n.nodeId == id)).map ChordNodeSt.data).getD []

/-- Data-plane and predecessor effect of `ChordNode.join` through an existing
network (node.py lines 79-103 with helpers `_init_finger_table` lines
110-143 and `_migrate_keys_from_successor` lines 189-215), together with
`ChordNetwork.add_node` appending the node to the network (chord_network.py
lines 66-95).  `succId` is the id of the successor found by
`find_successor(self + 1)` during `_init_finger_table`; routing is read-only,
so the routing result enters as a parameter.  The join sets
`x.pred := s.pred` then `s.pred := x` (node.py lines 122-123), then migrates
from the successor every key whose hash lies in `(pred, x]` half-open
(node.py lines 199-215).  The remaining `_init_finger_table` finger queries
(lines 126-143) and `_update_others` (lines 145-159) write only finger-table
entries, never `_data` or `predecessor`, and are represented by setting
finger 0 to the successor (`set_node(0, successor)`, line 119). -/
def chordJoinViaSuccessor (hashKey : Nat → Nat) (net : List ChordNodeSt)
    (x : ChordNodeSt) (succId : Nat) : List ChordNodeSt :=
  match net.find? (fun n => n.nodeId == succId) with
  | none => net ++ [x]
  | some s =>
    let p? := s.pred
    let migrCond : Nat × Nat → Bool := fun kv =>
      match p? with
      | some p => inRange (hashKey kv.1) p x.nodeId false true
      | none => false
    let doMigrate : Bool := !(succId == x.nodeId)
    let migrated := if doMigrate then s.data.filter migrCond else []
    let sData := if doMigrate then s.data.filter (fun kv => ¬ migrCond kv) else s.data
    let x' : ChordNodeSt :=
      { x with pred := p?, fingers := x.fingers.set 0 (some succId),
               data := x.data ++ migrated }
    (net.map fun n =>
      if n.nodeId == succId then { n with pred := some x.nodeId, data := sData } else n)
      ++ [x']

/-- Return value of `ChordNode.join` (node.py lines 79-103): the function
ends without a `return` statement in both branches, so its value is Python
`None`; `ChordNetwork.add_node` (chord_network.py lines 82-95) returns this
value as `hops`. -/
def chordAddNodeHops : Option Nat := none

/-- Hop count returned by `PastryNode.join` (pastry node.py lines 122-165):
`total_hops` starts at 0; joining through an existing node adds the hop
counts of `_route_join`, `_notify_neighbors` and `_migrate_keys`
(parameters here); with no bootstrap node the total stays 0.
`PastryNetwork.add_node` (pastry_network.py lines 53-82) returns it. -/
def pastryJoinHops : Option (Nat × Nat × Nat) → Nat
  | none => 0
  | some (routeHops, notifyHops, migrateHops) => routeHops + notifyHops + migrateHops

/-! ## Pastry leaf set (src/src/dht/pastry/routing_table.py lines 58-248)

Nodes are represented by their numeric identifiers (the code compares leaf
set members by `node_id` throughout). -/

structure LeafSet where
  ownerId : Nat
  size : Nat
  left : List Nat
  right : List Nat
deriving DecidableEq

/-- Embedding of `LeafSet._insert_left` (routing_table.py lines 138-154):
return unchanged when the id is already present, otherwise append, sort
descending by id (closest to the owner first) and trim to `size`. -/
def LeafSet.insertLeft (ls : LeafSet) (id : Nat) : LeafSet :=
  if ls.left.contains id then ls
  else { ls with left := (((ls.left ++ [id]).insertionSort (· ≤ ·)).reverse).take ls.size }

/-- Embedding of `LeafSet._insert_right` (routing_table.py lines 156-172):
append, sort ascending by id and trim to `size`. -/
def LeafSet.insertRight (ls : LeafSet) (id : Nat) : LeafSet :=
  if ls.right.contains id then ls
  else { ls with right := ((ls.right ++ [id]).insertionSort (· ≤ ·)).take ls.size }

/-- Embedding of `LeafSet.insert` (routing_table.py lines 118-136): the owner
itself is rejected; smaller ids go to the left side, larger to the right. -/
def LeafSet.insert (ls : LeafSet) (id : Nat) : LeafSet :=
  if id = ls.ownerId then ls
  else if id < ls.ownerId then ls.insertLeft id
  else ls.insertRight id

/-- Embedding of `LeafSet.remove` (routing_table.py lines 174-194): drop the
first matching id from the left side, else from the right side. -/
def LeafSet.remove (ls : LeafSet) (id : Nat) : LeafSet :=
  if ls.left.contains id then { ls with left := ls.left.erase id }
  else if ls.right.contains id then { ls with right := ls.right.erase id }
  else ls

/-- The leaf-set invariant stated by the spec: each side holds at most `size`
(= L/2) nodes, all strictly on its side of the owner, with no duplicates and
sorted by proximity to the owner, closest first (descending ids on the left,
ascending on the right).  The owner never appears since membership of either
side forces a strict inequality with `ownerId`. -/
def LeafSet.WF (ls : LeafSet) : Prop :=
  ls.left.Pairwise (· > ·) ∧ ls.right.Pairwise (· < ·) ∧
  (∀ a ∈ ls.left, a < ls.ownerId) ∧ (∀ a ∈ ls.right, ls.ownerId < a) ∧
  ls.left.length ≤ ls.size ∧ ls.right.length ≤ ls.size

/-! ## Node-local storage (src/src/dht/base_node.py)

The local `_data` dictionary maps string keys to arbitrary Python values,
which may be `None`; keys are embedded as `Nat` and values as `Option Nat`
with `none` standing for Python `None`. -/

/-- Embedding of `BaseNode.get_local` (base_node.py lines 268-278):
`self._data.get(key)` yields the stored value — possibly `None` — or `None`
when the key is absent. -/
def getLocal (data : List (Nat × Option Nat)) (k : Nat) : Option Nat :=
  match data.lookup k with
  | some v => v
  | none => none

/-- Embedding of `BaseNode.store_local` (base_node.py lines 256-266):
dictionary assignment `self._data[key] = value`. -/
def storeLocal (data : List (Nat × Option Nat)) (k : Nat) (v : Option Nat) :
    List (Nat × Option Nat) :=
  if (data.lookup k).isSome then
    data.map (fun kv => if kv.1 == k then (k, v) else kv)
  else data ++ [(k, v)]

/-- Embedding of the outcome of `BaseNode.lookup` (base_node.py lines
166-191): after routing (whose result enters as `respId`, `hops` and the
responsible node's data), one delivery hop is added when the responsible
node differs from the issuer, and `get_local` produces the answer. -/
def baseLookupOutcome (respData : List (Nat × Option Nat))
    (selfId respId hops k : Nat) : Option Nat × Nat :=
  (getLocal respData k, if respId ≠ selfId then hops + 1 else hops)

/-- Embedding of the outcome of `BaseNode.update` (base_node.py lines
220-250): when `get_local` yields a non-`None` value the new value is
stored and `(True, hops)` returned, otherwise `(False, hops)` with the data
untouched. -/
def baseUpdateOutcome (respData : List (Nat × Option Nat))
    (selfId respId hops k : Nat) (v : Option Nat) :
    (Bool × Nat) × List (Nat × Option Nat) :=
  let hops2 := if respId ≠ selfId then hops + 1 else hops
  if (getLocal respData k).isSome then ((true, hops2), storeLocal respData k v)
  else ((false, hops2), respData)

/-! ## B+ tree (src/src/indexing/bplus_tree.py)

The tree is embedded as a nested inductive: a leaf holds its key-value
pairs (the code's parallel `keys`/`values` lists in lockstep), an internal
node holds separator keys and children.  The `_root is None` empty state is
`Option (BPNode V)`.  The leaf linked list (`next` pointers) is represented
by the left-to-right order of the leaves: splits insert the new right leaf
directly after the split leaf and merges concatenate adjacent leaves,
exactly as the code maintains `next` (lines 271-273 and 382-384), so the
chain always enumerates the leaves in tree order. -/

inductive BPNode (V : Type) where
  | leaf (kvs : List (Nat × V))
  | internal (keys : List Nat) (children : List (BPNode V))

/-- Minimum allowed number of keys in a non-root node: the code's
`min_keys = (self._order - 1) // 2` (bplus_tree.py lines 127, 341, 353,
403, 419, 434, 485). -/
def minKeys (O : Nat) : Nat := (O - 1) / 2

/-- Embedding of `bisect_left(keys, k)` on a sorted key list: the number of
keys strictly below `k`. -/
def bisectLeft (keys : List Nat) (k : Nat) : Nat :=
  (keys.takeWhile (fun a => a < k)).length

/-- Embedding of `bisect_right(keys, k)` on a sorted key list: the number of
keys at most `k`; `_find_leaf` (bplus_tree.py lines 249-255) descends into
child `bisect_right(node.keys, key)`. -/
def bisectRight (keys : List Nat) (k : Nat) : Nat :=
  (keys.takeWhile (fun a => a ≤ k)).length

/-- Number of keys held directly by a node, the quantity the underflow
checks compare against `min_keys` (bplus_tree.py lines 128-129, 402-405). -/
def keyCount {V : Type} : BPNode V → Nat
  | .leaf kvs => kvs.length
  | .internal keys _ => keys.length

/-- Underflow test `len(keys) < min_keys` (bplus_tree.py lines 127-129). -/
def underflow {V : Type} (O : Nat) (n : BPNode V) : Bool :=
  keyCount n < minKeys O

/-- Result of an insertion into a subtree: either the updated node, or the
two nodes and separator key produced by a split, which
`_insert_into_parent` (bplus_tree.py lines 296-323) splices into the
parent. -/
inductive InsResult (V : Type) where
  | one (n : BPNode V)
  | two (l : BPNode V) (sep : Nat) (r : BPNode V)

/-- Embedding of `_split_leaf` (bplus_tree.py lines 261-277): split at
`mid = len // 2`; the first key of the right half is pushed up. -/
def splitLeaf {V : Type} (kvs : List (Nat × V)) : InsResult V :=
  let mid := kvs.length / 2
  match kvs.drop mid with
  | [] => .one (.leaf kvs)
  | p :: _ => .two (.leaf (kvs.take mid)) p.1 (.leaf (kvs.drop mid))

/-- Embedding of `_split_internal` (bplus_tree.py lines 279-294): the key at
`mid = len // 2` is pushed up; the left node keeps keys `[:mid]` and
children `[:mid+1]`, the right node keys `[mid+1:]` and children
`[mid+1:]`. -/
def splitInternal {V : Type} (keys : List Nat) (children : List (BPNode V)) :
    InsResult V :=
  let mid := keys.length / 2
  match keys.drop mid with
  | [] => .one (.internal keys children)
  | s :: ks2 =>
    .two (.internal (keys.take mid) (children.take (mid + 1))) s
         (.internal ks2 (children.drop (mid + 1)))

mutual

/-- Embedding of `BPlusTree.insert` below the root (bplus_tree.py lines
72-99 for the leaf handling, `_find_leaf` lines 249-255 for the descent,
`_insert_into_parent` lines 296-323 for splicing splits): at a leaf, insert
at `bisect_left` position or overwrite an existing key, then split when the
leaf reaches `order` keys; at an internal node, descend into child
`bisect_right(keys, k)` (realized by `insGo` walking past separators
`≤ k`), splice a child split into this node's lists, and split this node
when it reaches `order` keys. -/
def insertAux {V : Type} (O k : Nat) (v : V) : BPNode V → InsResult V
  | .leaf kvs =>
    let idx := bisectLeft (kvs.map Prod.fst) k
    if (kvs.map Prod.fst)[idx]? = some k then .one (.leaf (kvs.set idx (k, v)))
    else
      let kvs2 := kvs.insertIdx idx (k, v)
      if O ≤ kvs2.length then splitLeaf kvs2 else .one (.leaf kvs2)
  | .internal keys children =>
    let (ks2, cs2) := insGo O k v keys children
    if O ≤ ks2.length then splitInternal ks2 cs2 else .one (.internal ks2 cs2)

/-- Walk an internal node's separators and children in lockstep to the
descent position `bisect_right(keys, k)` (skipping separators `≤ k`),
recurse there and splice the result, mirroring `children.insert(idx+1, r)`
and `keys.insert(idx, sep)` of `_insert_into_parent` (bplus_tree.py lines
315-319). -/
def insGo {V : Type} (O k : Nat) (v : V) :
    List Nat → List (BPNode V) → List Nat × List (BPNode V)
  | [], [c] =>
    (match insertAux O k v c with
     | .one c2 => ([], [c2])
     | .two l t r => ([t], [l, r]))
  | s :: ks, c :: cs =>
    if s ≤ k then
      let (ks2, cs2) := insGo O k v ks cs
      (s :: ks2, c :: cs2)
    else
      (match insertAux O k v c with
       | .one c2 => (s :: ks, c2 :: cs)
       | .two l t r => (t :: s :: ks, l :: r :: cs))
  | ks, cs => (ks, cs)

end

/-- Embedding of `BPlusTree.insert` at the root (bplus_tree.py lines 72-99
and the root case of `_insert_into_parent`, lines 303-310): an empty tree
gets a fresh leaf; a root split creates a new root with one separator. -/
def treeInsert {V : Type} (O k : Nat) (v : V) :
    Option (BPNode V) → Option (BPNode V)
  | none => some (.leaf [(k, v)])
  | some root =>
    match insertAux O k v root with
    | .one r => some r
    | .two l s r => some (.internal [s] [l, r])

/-- Leaf-level key removal of `BPlusTree.delete` (bplus_tree.py lines
106-114): pop the key at its `bisect_left` position when present. -/
def eraseKeyKvs {V : Type} (k : Nat) (kvs : List (Nat × V)) : List (Nat × V) :=
  let idx := bisectLeft (kvs.map Prod.fst) k
  if (kvs.map Prod.fst)[idx]? = some k then kvs.eraseIdx idx else kvs

/-- Leaf borrow from the right sibling (`_rebalance_leaf`, bplus_tree.py
lines 337-347) and internal borrow from the right sibling
(`_rebalance_internal`, lines 415-427), attempted only when the sibling has
more than `min_keys` keys; `s` is the parent separator between the two.
Returns the new child, new separator and new right sibling, or `none` when
the attempt does not apply. -/
def tryBorrowRight {V : Type} (O s : Nat) :
    BPNode V → BPNode V → Option (BPNode V × Nat × BPNode V)
  | .leaf ckvs, .leaf rkvs =>
    if minKeys O < rkvs.length then
      match rkvs with
      | p :: q :: rtl => some (.leaf (ckvs ++ [p]), q.1, .leaf (q :: rtl))
      | _ => none
    else none
  | .internal ckeys cch, .internal rkeys rch =>
    if minKeys O < rkeys.length then
      match rkeys, rch with
      | rk :: rks, rc0 :: rchs =>
        some (.internal (ckeys ++ [s]) (cch ++ [rc0]), rk, .internal rks rchs)
      | _, _ => none
    else none
  | _, _ => none

/-- Leaf borrow from the left sibling (`_rebalance_leaf`, bplus_tree.py
lines 349-359) and internal borrow from the left sibling
(`_rebalance_internal`, lines 429-441); `ls` is the parent separator
between left sibling and child.  Returns the new left sibling, new
separator and new child. -/
def tryBorrowLeft {V : Type} (O ls : Nat) :
    BPNode V → BPNode V → Option (BPNode V × Nat × BPNode V)
  | .leaf lkvs, .leaf ckvs =>
    if minKeys O < lkvs.length then
      match lkvs.getLast? with
      | some p => some (.leaf lkvs.dropLast, p.1, .leaf (p :: ckvs))
      | none => none
    else none
  | .internal lkeys lch, .internal ckeys cch =>
    if minKeys O < lkeys.length then
      match lkeys.getLast?, lch.getLast? with
      | some lk, some lc2 =>
        some (.internal lkeys.dropLast lch.dropLast, lk,
              .internal (ls :: ckeys) (lc2 :: cch))
      | _, _ => none
    else none
  | _, _ => none

/-- Merge of the child into its right sibling (`_merge_leaves`,
bplus_tree.py lines 374-393, and `_merge_internals`, lines 456-475, called
with `key_idx = idx`): the separator `s` is removed from the parent; for
internal nodes it is pulled down between the key lists. -/
def tryMergeRight {V : Type} (s : Nat) :
    BPNode V → BPNode V → Option (BPNode V)
  | .leaf ckvs, .leaf rkvs => some (.leaf (ckvs ++ rkvs))
  | .internal ckeys cch, .internal rkeys rch =>
    some (.internal (ckeys ++ s :: rkeys) (cch ++ rch))
  | _, _ => none

/-- Merge of the left sibling and the child (`_merge_leaves` /
`_merge_internals` called with `key_idx = idx - 1`): the separator `ls` is
removed from the parent. -/
def tryMergeLeft {V : Type} (ls : Nat) :
    BPNode V → BPNode V → Option (BPNode V)
  | .leaf lkvs, .leaf ckvs => some (.leaf (lkvs ++ ckvs))
  | .internal lkeys lch, .internal ckeys cch =>
    some (.internal (lkeys ++ ls :: ckeys) (lch ++ cch))
  | _, _ => none

/-- Rebalancing of an underflowing child at position 0 of its parent
(`_rebalance_leaf` lines 329-372 / `_rebalance_internal` lines 407-454
with `idx = 0`): borrow from the right sibling, else merge with it; there
is no left sibling.  The segment `(s :: ks, c2 :: cs)` is the parent's key
and child lists with `c2` the already-updated child. -/
def rebalFirst {V : Type} (O : Nat) (c2 : BPNode V) (s : Nat) (ks : List Nat)
    (cs : List (BPNode V)) : List Nat × List (BPNode V) :=
  match cs with
  | rc :: rest =>
    match tryBorrowRight O s c2 rc with
    | some (cN, sN, rcN) => (sN :: ks, cN :: rcN :: rest)
    | none =>
      match tryMergeRight s c2 rc with
      | some m => (ks, m :: rest)
      | none => (s :: ks, c2 :: cs)
  | [] => (s :: ks, c2 :: cs)

/-- Rebalancing of an underflowing child with both neighbours available
(`_rebalance_leaf` / `_rebalance_internal` at an interior index): borrow
right, borrow left, merge right, merge left, in the code's order.  The
parent segment around the child is `([ls] ++ [s] ++ ks,
[lc] ++ [c2] ++ cs)`. -/
def rebalMid {V : Type} (O : Nat) (lc : BPNode V) (ls : Nat) (c2 : BPNode V)
    (s : Nat) (ks : List Nat) (cs : List (BPNode V)) :
    List Nat × List (BPNode V) :=
  match cs with
  | rc :: rest =>
    match tryBorrowRight O s c2 rc with
    | some (cN, sN, rcN) => (ls :: sN :: ks, lc :: cN :: rcN :: rest)
    | none =>
      match tryBorrowLeft O ls lc c2 with
      | some (lcN, lsN, cN) => (lsN :: s :: ks, lcN :: cN :: cs)
      | none =>
        match tryMergeRight s c2 rc with
        | some m => (ls :: ks, lc :: m :: rest)
        | none =>
          match tryMergeLeft ls lc c2 with
          | some m => (s :: ks, m :: cs)
          | none => (ls :: s :: ks, lc :: c2 :: cs)
  | [] =>
    match tryBorrowLeft O ls lc c2 with
    | some (lcN, lsN, cN) => (lsN :: s :: ks, [lcN, cN])
    | none =>
      match tryMergeLeft ls lc c2 with
      | some m => (s :: ks, [m])
      | none => (ls :: s :: ks, [lc, c2])

/-- Rebalancing of an underflowing child at the last position
(`_rebalance_leaf` / `_rebalance_internal` with `idx = len(children) - 1`):
there is no right sibling, so borrow from the left sibling, else merge with
it. -/
def rebalLast {V : Type} (O : Nat) (lc : BPNode V) (ls : Nat) (c2 : BPNode V) :
    List Nat × List (BPNode V) :=
  match tryBorrowLeft O ls lc c2 with
  | some (lcN, lsN, cN) => ([lsN], [lcN, cN])
  | none =>
    match tryMergeLeft ls lc c2 with
    | some m => ([], [m])
    | none => ([ls], [lc, c2])

mutual

/-- Embedding of `BPlusTree.delete` below the root (bplus_tree.py lines
101-131): descend to the leaf holding the key via `bisect_right`
(`_find_leaf`), remove the key, and when a non-root node underflows repair
it at its parent (`_rebalance_leaf` lines 329-372, `_rebalance_internal`
lines 407-454, cascading merges via the parent's own underflow check in
`_merge_leaves` / `_merge_internals` lines 401-405 and 483-487, realized
here by each parent checking its updated child). -/
def deleteAux {V : Type} (O k : Nat) : BPNode V → BPNode V
  | .leaf kvs => .leaf (eraseKeyKvs k kvs)
  | .internal keys children =>
    match keys, children with
    | s :: ks, c :: cs =>
      if k < s then
        let c2 := deleteAux O k c
        if underflow O c2 then
          let (ks2, cs2) := rebalFirst O c2 s ks cs
          .internal ks2 cs2
        else .internal (s :: ks) (c2 :: cs)
      else
        let (ks2, cs2) := delGo O k c s ks cs
        .internal ks2 cs2
    | [], [c] => .internal [] [deleteAux O k c]
    | ks, cs => .internal ks cs

/-- Walk to the descent position `bisect_right(keys, k)` keeping the child
to the left of the position in hand (it is the left sibling a rebalance may
borrow from or merge with).  The segment processed is
`([ls] ++ keys, [lc] ++ children)` with `ls ≤ k` already known. -/
def delGo {V : Type} (O k : Nat) (lc : BPNode V) (ls : Nat) :
    List Nat → List (BPNode V) → List Nat × List (BPNode V)
  | [], [c] =>
    let c2 := deleteAux O k c
    if underflow O c2 then rebalLast O lc ls c2 else ([ls], [lc, c2])
  | s :: ks, c :: cs =>
    if k < s then
      let c2 := deleteAux O k c
      if underflow O c2 then rebalMid O lc ls c2 s ks cs
      else (ls :: s :: ks, lc :: c2 :: cs)
    else
      let (ks2, cs2) := delGo O k c s ks cs
      (ls :: ks2, lc :: cs2)
  | ks, cs => (ls :: ks, lc :: cs)

end

/-- Embedding of `BPlusTree.delete` at the root (bplus_tree.py lines
101-131 with the root-collapse check of `_merge_leaves` /
`_merge_internals`, lines 395-399 and 477-481): a root leaf is exempt from
rebalancing; when the whole tree empties the root is reset to `None`; when
a merge leaves an internal root without keys its single child becomes the
root. -/
def treeDelete {V : Type} (O k : Nat) :
    Option (BPNode V) → Option (BPNode V)
  | none => none
  | some root =>
    match deleteAux O k root with
    | .leaf [] => none
    | .internal [] (c :: _) => some c
    | r => some r

/-- One client operation on the local index. -/
inductive BOp (V : Type) where
  | ins (k : Nat) (v : V)
  | del (k : Nat)

/-- A B+ tree state reached from the empty tree by a sequence of insert and
delete operations. -/
def applyOps {V : Type} (O : Nat) (ops : List (BOp V)) : Option (BPNode V) :=
  ops.foldl (fun t op =>
    match op with
    | .ins k v => treeInsert O k v t
    | .del k => treeDelete O k t) none

mutual

/-- All key-value pairs of a subtree in leaf order: the contents of the
leaf linked list restricted to this subtree. -/
def nodeEntries {V : Type} : BPNode V → List (Nat × V)
  | .leaf kvs => kvs
  | .internal _ children => entriesList children

def entriesList {V : Type} : List (BPNode V) → List (Nat × V)
  | [] => []
  | c :: cs => nodeEntries c ++ entriesList cs

end

/-- All key-value pairs of the tree in ascending leaf order. -/
def treeToList {V : Type} : Option (BPNode V) → List (Nat × V)
  | none => []
  | some n => nodeEntries n

/-- Embedding of the start of `range_query` (bplus_tree.py lines 133-157):
descend to the leaf `_find_leaf(start_key)` (skipping separators
`≤ start_key`, line 253), position at `bisect_left(leaf.keys, start_key)`
(line 146), and return everything from there to the end of the leaf chain:
the suffix of the entry sequence the scanning loop walks. -/
def entriesFrom {V : Type} : BPNode V → Nat → List (Nat × V)
  | .leaf kvs, lo => kvs.drop (bisectLeft (kvs.map Prod.fst) lo)
  | .internal keys children, lo =>
    match keys, children with
    | s :: ks, c :: cs =>
      if s ≤ lo then entriesFrom (.internal ks cs) lo
      else entriesFrom c lo ++ entriesList cs
    | [], c :: _ => entriesFrom c lo
    | _, [] => []

/-- Embedding of `range_query(start_key, end_key)` (bplus_tree.py lines
133-157): walk the leaf chain from the start position, emitting entries
and returning as soon as a key exceeds `end_key`. -/
def rangeQuery {V : Type} (t : Option (BPNode V)) (lo hi : Nat) :
    List (Nat × V) :=
  match t with
  | none => []
  | some n => (entriesFrom n lo).takeWhile (fun p => p.1 ≤ hi)

/-- Embedding of `BPlusTree.search` below the root (bplus_tree.py lines
62-70): descend with `_find_leaf`, probe position `bisect_left` (`if idx <
len(leaf.keys) and leaf.keys[idx] == key`). -/
def searchAux {V : Type} : BPNode V → Nat → Option V
  | .leaf kvs, k =>
    match (kvs.drop (bisectLeft (kvs.map Prod.fst) k)).head? with
    | some p => if p.1 = k then some p.2 else none
    | none => none
  | .internal keys children, k =>
    match keys, children with
    | s :: ks, c :: cs =>
      if s ≤ k then searchAux (.internal ks cs) k
      else searchAux c k
    | [], c :: _ => searchAux c k
    | _, [] => none

/-- Embedding of `BPlusTree.search` (bplus_tree.py lines 62-70): `None` on
the empty tree.  The generic value type keeps the found value wrapped. -/
def treeSearch {V : Type} (t : Option (BPNode V)) (k : Nat) : Option V :=
  match t with
  | none => none
  | some n => searchAux n k

/-- The value `BPlusTree.search` returns when values themselves may be
Python `None` (modelled as `Option Nat`): the code returns
`leaf.values[idx]`, so a stored `None` and a missing key both come back as
`None`. -/
def searchPy (t : Option (BPNode (Option Nat))) (k : Nat) : Option Nat :=
  match treeSearch t k with
  | some v => v
  | none => none

/-- Embedding of `BPlusTree.__contains__` (bplus_tree.py lines 178-183):
key presence via the same leaf probe, regardless of the stored value. -/
def bplusContains {V : Type} (t : Option (BPNode V)) (k : Nat) : Bool :=
  match t with
  | none => false
  | some n =>
    match searchAux n k with
    | some _ => true
    | none =>
      false

/-- Every leaf in this forest of non-root subtrees has at least `m` keys. -/
def nonRootLeavesOk {V : Type} (m : Nat) : List (BPNode V) → Bool
  | [] => true
  | .leaf kvs :: cs => (m ≤ kvs.length) && nonRootLeavesOk m cs
  | .internal _ gs :: cs => nonRootLeavesOk m gs && nonRootLeavesOk m cs

/-- Checker for the minimum-occupancy claim: every leaf strictly below the
root holds at least `m` keys (the root itself, leaf or internal, is
exempt). -/
def leavesMinOcc {V : Type} (m : Nat) : Option (BPNode V) → Bool
  | none => true
  | some (.leaf _) => true
  | some (.internal _ children) => nonRootLeavesOk m children

/-- Lower-bound constraint of a bounds interval: `lb ≤ k` when a bound is
present. -/
def lbOK : Option Nat → Nat → Prop
  | none, _ => True
  | some a, k => a ≤ k

/-- Upper-bound constraint: `k < ub` when a bound is present; the validator
checks child keys strictly below the separator on the left and at least the
separator on the right (test_bplus_tree.py `_check_key_ordering`). -/
def ubOK : Nat → Option Nat → Prop
  | _, none => True
  | k, some b => k < b

mutual

/-- Structural invariant of a B+ subtree of height `h` whose keys lie in
`[lb, ub)`: keys strictly sorted inside nodes, separator conditions, counts
between `minC` (`minC = minKeys O` for non-root nodes, 1 for the root) and
`O - 1`, all leaves at equal depth.  These are the invariants the
repository's own validator checks (tests/test_bplus_tree.py
`validate_tree`). -/
def WF {V : Type} (O minC : Nat) : Nat → Option Nat → Option Nat → BPNode V → Prop
  | 0, lb, ub, .leaf kvs =>
    (kvs.map Prod.fst).Pairwise (· < ·) ∧
    (∀ p ∈ kvs, lbOK lb p.1 ∧ ubOK p.1 ub) ∧
    minC ≤ kvs.length ∧ kvs.length ≤ O - 1
  | h + 1, lb, ub, .internal keys children =>
    minC ≤ keys.length ∧ keys.length ≤ O - 1 ∧ Fence O h lb ub keys children
  | _, _, _, _ => False

/-- A fence of children separated by keys: child i carries the keys in
`[keys[i-1], keys[i])` (with the outer `lb`/`ub` at the ends), every child
is well formed at height `h` with the non-root minimum count. -/
def Fence {V : Type} (O h : Nat) :
    Option Nat → Option Nat → List Nat → List (BPNode V) → Prop
  | lb, ub, [], [c] => WF O (minKeys O) h lb ub c
  | lb, ub, s :: ks, c :: cs =>
    lbOK lb s ∧ ubOK s ub ∧ WF O (minKeys O) h lb (some s) c ∧
      Fence O h (some s) ub ks cs
  | _, _, _, _ => False

end

/-- Invariant of the whole tree: the root may hold as few as one key. -/
def RootWF {V : Type} (O : Nat) : Option (BPNode V) → Prop
  | none => True
  | some n => ∃ h, WF O 1 h none none n

/-- Statement form for `insertAux` preservation: a non-split result keeps the
same bounds and minimum count; a split yields two well-formed halves around
the pushed-up separator. -/
def InsertOK {V : Type} (O minC h k : Nat) (v : V) (lb ub : Option Nat)
    (n : BPNode V) : Prop :=
  match insertAux O k v n with
  | .one n2 => WF O minC h lb ub n2
  | .two l s r =>
    WF O (minKeys O) h lb (some s) l ∧ WF O (minKeys O) h (some s) ub r ∧
    lbOK lb s ∧ ubOK s ub

/-- Statement form for `insGo` preservation: the spliced key and child lists
still form a fence and the key count grows by at most one. -/
def InsGoOK {V : Type} (O h k : Nat) (v : V) (lb ub : Option Nat)
    (ks : List Nat) (cs : List (BPNode V)) : Prop :=
  Fence O h lb ub (insGo O k v ks cs).1 (insGo O k v ks cs).2 ∧
  ((insGo O k v ks cs).1.length = ks.length ∨
   (insGo O k v ks cs).1.length = ks.length + 1)

/-! ## Theorems -/

theorem find?_nodeId_of_mem_nodup {net : List ChordNodeSt} {s : ChordNodeSt}
    (hnd : (net.map ChordNodeSt.nodeId).Nodup) (hmem : s ∈ net) :
    net.find? (fun n => n.nodeId == s.nodeId) = some s := by
  induction net with
  | nil => cases hmem
  | cons h t ih =>
    simp only [List.map_cons, List.nodup_cons] at hnd
    rcases List.mem_cons.mp hmem with rfl | hmem2
    · simp [List.find?_cons]
    · have hne : (h.nodeId == s.nodeId) = false := by
        refine beq_eq_false_iff_ne.mpr (fun he => hnd.1 ?_)
        exact he ▸ List.mem_map.mpr ⟨s, hmem2, rfl⟩
      rw [List.find?_cons, hne]
      exact ih hnd.2 hmem2

theorem dataOf_stepNet (net : List ChordNodeSt) (f : ChordNodeSt → ChordNodeSt)
    (hids : ∀ n, (f n).nodeId = n.nodeId) (y : ChordNodeSt) (i : Nat) :
    dataOf (net.map f ++ [y]) i =
      match net.find? (fun n => n.nodeId == i) with
      | some n => (f n).data
      | none => if y.nodeId = i then y.data else [] := by
  unfold dataOf
  rw [List.find?_append, List.find?_map]
  have hpf : ((fun n : ChordNodeSt => n.nodeId == i) ∘ f) = fun n => n.nodeId == i := by
    funext n; simp [Function.comp, hids n]
  rw [hpf]
  cases h : net.find? (fun n => n.nodeId == i) with
  | some n => simp
  | none =>
    by_cases hy : y.nodeId = i <;>
      simp [List.find?_cons, hy]

/-- C1: when a node x joins a populated Chord overlay, every key of the
successor whose hashed identifier lies in the half-open ring interval
(predecessor(x), x] moves to x, the successor retains exactly the other
keys, and every other node's data is unchanged. -/
theorem chord_join_migration (hashKey : Nat → Nat) (net : List ChordNodeSt)
    (x s : ChordNodeSt) (p : Nat)
    (hnd : (net.map ChordNodeSt.nodeId).Nodup)
    (hmem : s ∈ net)
    (hxnew : x.nodeId ∉ net.map ChordNodeSt.nodeId)
    (hne : s.nodeId ≠ x.nodeId)
    (hp : s.pred = some p)
    (hxdata : x.data = []) :
    dataOf (chordJoinViaSuccessor hashKey net x s.nodeId) x.nodeId =
        s.data.filter (fun kv => inRange (hashKey kv.1) p x.nodeId false true) ∧
    dataOf (chordJoinViaSuccessor hashKey net x s.nodeId) s.nodeId =
        s.data.filter (fun kv => ¬ inRange (hashKey kv.1) p x.nodeId false true) ∧
    ∀ n ∈ net, n.nodeId ≠ s.nodeId →
        dataOf (chordJoinViaSuccessor hashKey net x s.nodeId) n.nodeId = n.data := by
  have hfind : net.find? (fun n => n.nodeId == s.nodeId) = some s :=
    find?_nodeId_of_mem_nodup hnd hmem
  have hsx : (s.nodeId == x.nodeId) = false := beq_eq_false_iff_ne.mpr hne
  unfold chordJoinViaSuccessor
  rw [hfind]
  simp only [hp, hsx, Bool.not_false, if_true, hxdata, List.nil_append]
  have hids : ∀ n : ChordNodeSt,
      ((fun n : ChordNodeSt =>
        if (n.nodeId == s.nodeId) = true then
          { n with pred := some x.nodeId,
                   data := s.data.filter
                     (fun kv => decide ¬inRange (hashKey kv.1) p x.nodeId false true = true) }
        else n) n).nodeId = n.nodeId := by
    intro n; by_cases hc : (n.nodeId == s.nodeId) = true <;> simp [hc]
  refine ⟨?_, ?_, ?_⟩
  · rw [dataOf_stepNet _ _ hids]
    have hnone : net.find? (fun n => n.nodeId == x.nodeId) = none := by
      rw [List.find?_eq_none]
      intro n hn
      simp only [beq_iff_eq]
      intro he
      exact hxnew (he ▸ List.mem_map.mpr ⟨n, hn, rfl⟩)
    rw [hnone]
    simp
  · rw [dataOf_stepNet _ _ hids, hfind]
    simp
  · intro n hn hn2
    rw [dataOf_stepNet _ _ hids]
    have : net.find? (fun m => m.nodeId == n.nodeId) = some n :=
      find?_nodeId_of_mem_nodup hnd hn
    rw [this]
    simp [beq_eq_false_iff_ne.mpr hn2]

/-- Witness for C1 at a concrete network: node 25 joins with successor 30
(predecessor 10); the successor holds keys 20 and 35 (hashed to
themselves), of which 20 lies in (10, 25] and migrates while 35 stays. -/
theorem chord_join_migration_witness :
    dataOf (chordJoinViaSuccessor (fun k => k)
        [⟨30, [some 30], some 10, [(20, 100), (35, 200)]⟩]
        ⟨25, [none], none, []⟩ 30) 25 = [(20, 100)] ∧
    dataOf (chordJoinViaSuccessor (fun k => k)
        [⟨30, [some 30], some 10, [(20, 100), (35, 200)]⟩]
        ⟨25, [none], none, []⟩ 30) 30 = [(35, 200)] := by
  have h := chord_join_migration (fun k => k)
      [⟨30, [some 30], some 10, [(20, 100), (35, 200)]⟩]
      ⟨25, [none], none, []⟩ ⟨30, [some 30], some 10, [(20, 100), (35, 200)]⟩ 10
      (by decide) (by decide) (by decide) (by decide) (by decide) (by decide)
  exact ⟨h.1.trans (by decide), h.2.1.trans (by decide)⟩

/-- C2 (code side): on a concrete two-node Chord network, `ChordNode.insert`
issued at node 10 for a key owned by node 20 returns hop count 0 even
though the responsible node differs from the issuer, while the hop rule of
`BaseNode.insert` (which Pastry inherits, and which the claim states) yields
0 + 1 = 1. -/
theorem chord_insert_drops_delivery_hop :
    chordInsertOutcome (fun k => k) c2net 64 10 15 = some (true, 0, 20) ∧
    (20 : Nat) ≠ 10 ∧ baseInsertHops 10 20 0 = 1 := by decide

/-- C4 (code side): `ChordNetwork.add_node` returns the value of
`ChordNode.join`, which is Python `None` rather than the hop count the
claim (and `BaseNode.join`'s declared contract) requires; the Pastry join
does return a number, 0 for the seed node. -/
theorem chord_add_node_returns_none :
    chordAddNodeHops = none ∧ chordAddNodeHops ≠ some 0 ∧ pastryJoinHops none = 0 := by
  decide

/-- C5 counterexample: a Chord finger table built with the default size has
`CHORD_FINGER_TABLE_SIZE = 20` entries, not m = `HASH_BIT_SIZE` = 160 as the
claim states. -/
theorem finger_table_size_counterexample :
    (FingerTable.init 0 none).length = CHORD_FINGER_TABLE_SIZE ∧
    (FingerTable.init 0 none).length ≠ HASH_BIT_SIZE := by decide

/-- C5 as amended: every Chord finger table has exactly
`CHORD_FINGER_TABLE_SIZE` (= 20 by default) entries, entry i has
`start = (self + 2^i) mod 2^m`, and the successor is read from entry 0. -/
theorem finger_table_layout (nodeId : Nat) :
    (FingerTable.init nodeId none).length = CHORD_FINGER_TABLE_SIZE ∧
    (∀ i : Nat, ((FingerTable.init nodeId none)[i]?).map FingerTableEntry.start =
        if i < CHORD_FINGER_TABLE_SIZE then some ((nodeId + 2 ^ i) % HASH_SPACE_SIZE)
        else none) ∧
    FingerTable.getSuccessor (FingerTable.init nodeId none) =
      ((FingerTable.init nodeId none)[0]?).bind FingerTableEntry.node := by
  refine ⟨by simp [FingerTable.init], fun i => ?_, ?_⟩
  · by_cases hi : i < CHORD_FINGER_TABLE_SIZE
    · simp [FingerTable.init, List.getElem?_map, List.getElem?_range hi, hi]
    · simp [FingerTable.init, List.getElem?_eq_none, Nat.le_of_not_lt hi, hi]
  · cases h : FingerTable.init nodeId none with
    | nil => simp [FingerTable.getSuccessor, h]
    | cons e es => simp [FingerTable.getSuccessor, h]

/-- C6 counterexample: with `a == b` and the endpoint not included,
`in_range` still reports the endpoint itself as inside the range
(`in_range(3, 3, 3, False, True)` is `True`), contrary to the claim that
`x == a` is then not in the range. -/
theorem in_range_degenerate_counterexample : inRange 3 3 3 false true = true := by
  decide

/-- C6 as amended: for `a == b`, `in_range` returns membership of the single
point `{a}` when both endpoints are inclusive, and `True` for every value —
including `x == a` — otherwise. -/
theorem in_range_degenerate_full_ring (v a : Nat) (s e : Bool) :
    inRange v a a s e =
      if s && e then decide (v % HASH_SPACE_SIZE = a % HASH_SPACE_SIZE) else true := by
  simp [inRange]

theorem inRange_strict_distance_lt {x a b : Nat}
    (hab : a % HASH_SPACE_SIZE ≠ b % HASH_SPACE_SIZE)
    (hx : inRange x a b false false = true) :
    distance x b < distance a b := by
  have hS : 0 < HASH_SPACE_SIZE := by unfold HASH_SPACE_SIZE; positivity
  have hvS : x % HASH_SPACE_SIZE < HASH_SPACE_SIZE := Nat.mod_lt _ hS
  have haS : a % HASH_SPACE_SIZE < HASH_SPACE_SIZE := Nat.mod_lt _ hS
  have hbS : b % HASH_SPACE_SIZE < HASH_SPACE_SIZE := Nat.mod_lt _ hS
  unfold inRange at hx
  unfold distance
  simp only [] at hx
  split_ifs at hx <;> simp_all <;> split_ifs <;> omega

set_option maxRecDepth 10000 in
/-- C8 counterexample: under malformed routing state (a finger chain that
advances one node at a time), `_find_predecessor_with_hops` runs 161 > m =
160 routing iterations and still returns a node; no iteration cap is
enforced and no `RoutingDiverged` error exists in the code. -/
theorem chord_routing_cap_counterexample :
    findPredecessorWithHops capNet 1000 1 500 0 = some (162, 161) ∧
    HASH_BIT_SIZE < 161 := by decide

/-- C8 as amended: the progress guarantee that replaces the missing cap is
conditional.  At every node whose id differs from the key id (mod 2^160),
whenever `closest_preceding_finger` moves off the current node the chosen
finger is strictly closer to the target on the ring.  At a node whose id
equals the key id the guarantee fails: the degenerate
`in_range(f, key, key, False, False)` accepts every finger, and the
forwarding step can strictly increase the clockwise distance (node 100 with
a finger at 50 forwards a lookup of key id 100 to node 50, moving the
distance from 0 to 50). -/
theorem chord_routing_progress :
    (∀ (n : ChordNodeSt) (keyId : Nat),
      n.nodeId % HASH_SPACE_SIZE ≠ keyId % HASH_SPACE_SIZE →
      closestPrecedingFinger n keyId ≠ n.nodeId →
      distance (closestPrecedingFinger n keyId) keyId <
        distance n.nodeId keyId) ∧
    closestPrecedingFinger ⟨100, [some 50], none, []⟩ 100 = 50 ∧
    distance 100 100 < distance 50 100 := by
  refine ⟨?_, by decide, by decide⟩
  intro n keyId hkey hmove
  unfold closestPrecedingFinger at hmove ⊢
  cases hfs : n.fingers.reverse.findSome? (fun f =>
      match f with
      | none => none
      | some fid =>
        if inRange fid n.nodeId keyId false false then some fid else none) with
  | none =>
    rw [hfs] at hmove
    exact absurd rfl hmove
  | some fid =>
    obtain ⟨f, -, hf⟩ := List.exists_of_findSome?_eq_some hfs
    show distance fid keyId < distance n.nodeId keyId
    match f with
    | none => exact absurd hf (by simp)
    | some fid2 =>
      by_cases hin : inRange fid2 n.nodeId keyId false false = true
      · simp only [hin, if_true] at hf
        obtain rfl : fid2 = fid := by simpa using hf
        exact inRange_strict_distance_lt hkey hin
      · simp [hin] at hf

/-- Witness for the routing progress theorem: node 10 with a finger at 15
routes towards 20; the step from 10 to 15 shrinks the clockwise distance. -/
theorem chord_routing_progress_witness :
    (10 : Nat) % HASH_SPACE_SIZE ≠ 20 % HASH_SPACE_SIZE ∧
    closestPrecedingFinger ⟨10, [some 15], none, []⟩ 20 ≠ 10 ∧
    distance (closestPrecedingFinger ⟨10, [some 15], none, []⟩ 20) 20 <
      distance 10 20 :=
  ⟨by decide, by decide,
   chord_routing_progress.1 ⟨10, [some 15], none, []⟩ 20 (by decide) (by decide)⟩

theorem sortTrim_asc (l : List Nat) (id sz : Nat) (hP : l.Pairwise (· < ·))
    (hid : id ∉ l) :
    (((l ++ [id]).insertionSort (· ≤ ·)).take sz).Pairwise (· < ·) ∧
    (∀ a ∈ ((l ++ [id]).insertionSort (· ≤ ·)).take sz, a ∈ l ∨ a = id) ∧
    (((l ++ [id]).insertionSort (· ≤ ·)).take sz).length ≤ sz := by
  have hnd : (l ++ [id]).Nodup := by
    simp [List.nodup_append, hP.nodup, hid]
  have hs : ((l ++ [id]).insertionSort (· ≤ ·)).Sorted (· ≤ ·) :=
    List.sorted_insertionSort _ _
  have hnd2 : ((l ++ [id]).insertionSort (· ≤ ·)).Nodup :=
    (List.perm_insertionSort _ _).nodup_iff.mpr hnd
  have hstrict : ((l ++ [id]).insertionSort (· ≤ ·)).Pairwise (· < ·) :=
    (hs.and hnd2).imp (fun h => lt_of_le_of_ne h.1 h.2)
  refine ⟨hstrict.sublist (List.take_sublist _ _), ?_, ?_⟩
  · intro a ha
    have : a ∈ l ++ [id] :=
      (List.perm_insertionSort _ _).mem_iff.mp (List.mem_of_mem_take ha)
    simpa using this
  · simp [List.length_take]

theorem sortTrim_desc (l : List Nat) (id sz : Nat) (hP : l.Pairwise (· > ·))
    (hid : id ∉ l) :
    ((((l ++ [id]).insertionSort (· ≤ ·)).reverse).take sz).Pairwise (· > ·) ∧
    (∀ a ∈ (((l ++ [id]).insertionSort (· ≤ ·)).reverse).take sz, a ∈ l ∨ a = id) ∧
    ((((l ++ [id]).insertionSort (· ≤ ·)).reverse).take sz).length ≤ sz := by
  have hnd : (l ++ [id]).Nodup := by
    simp [List.nodup_append, hP.nodup, hid]
  have hs : ((l ++ [id]).insertionSort (· ≤ ·)).Sorted (· ≤ ·) :=
    List.sorted_insertionSort _ _
  have hnd2 : ((l ++ [id]).insertionSort (· ≤ ·)).Nodup :=
    (List.perm_insertionSort _ _).nodup_iff.mpr hnd
  have hstrict : ((l ++ [id]).insertionSort (· ≤ ·)).Pairwise (· < ·) :=
    (hs.and hnd2).imp (fun h => lt_of_le_of_ne h.1 h.2)
  have hdesc : (((l ++ [id]).insertionSort (· ≤ ·)).reverse).Pairwise (· > ·) := by
    rw [List.pairwise_reverse]; exact hstrict
  refine ⟨hdesc.sublist (List.take_sublist _ _), ?_, ?_⟩
  · intro a ha
    have : a ∈ l ++ [id] := by
      have h2 := List.mem_of_mem_take ha
      rw [List.mem_reverse] at h2
      exact (List.perm_insertionSort _ _).mem_iff.mp h2
    simpa using this
  · simp [List.length_take]

/-- C9: leaf set insert and remove preserve the invariant: at most L/2
distinct nodes per side, all smaller than the owner on the left and larger
on the right, each side sorted by proximity to the owner closest first, and
the owner on neither side. -/
theorem leaf_set_invariant_preserved (ls : LeafSet) (id : Nat) (h : ls.WF) :
    (ls.insert id).WF ∧ (ls.remove id).WF := by
  obtain ⟨hL, hR, hLb, hRb, hLl, hRl⟩ := h
  constructor
  · unfold LeafSet.insert LeafSet.insertLeft LeafSet.insertRight
    by_cases h0 : id = ls.ownerId
    · simp only [h0, if_true]; exact ⟨hL, hR, hLb, hRb, hLl, hRl⟩
    · rw [if_neg h0]
      by_cases h1 : id < ls.ownerId
      · rw [if_pos h1]
        by_cases h2 : ls.left.contains id
        · rw [if_pos h2]; exact ⟨hL, hR, hLb, hRb, hLl, hRl⟩
        · rw [if_neg h2]
          have hid : id ∉ ls.left := by
            intro hmem; exact h2 (List.elem_eq_true_of_mem hmem)
          obtain ⟨hp, hm, hl⟩ := sortTrim_desc ls.left id ls.size hL hid
          refine ⟨hp, hR, ?_, hRb, hl, hRl⟩
          intro a ha
          rcases hm a ha with h3 | h3
          · exact hLb a h3
          · show a < ls.ownerId
            rw [h3]; exact h1
      · rw [if_neg h1]
        by_cases h2 : ls.right.contains id
        · rw [if_pos h2]; exact ⟨hL, hR, hLb, hRb, hLl, hRl⟩
        · rw [if_neg h2]
          have hid : id ∉ ls.right := by
            intro hmem; exact h2 (List.elem_eq_true_of_mem hmem)
          obtain ⟨hp, hm, hl⟩ := sortTrim_asc ls.right id ls.size hR hid
          refine ⟨hL, hp, hLb, ?_, hLl, hl⟩
          intro a ha
          rcases hm a ha with h3 | h3
          · exact hRb a h3
          · show ls.ownerId < a
            rw [h3]
            exact lt_of_le_of_ne (Nat.le_of_not_lt h1) (fun he => h0 he.symm)
  · unfold LeafSet.remove
    by_cases h2 : ls.left.contains id
    · rw [if_pos h2]
      refine ⟨hL.sublist (ls.left.erase_sublist id), hR, ?_, hRb, ?_, hRl⟩
      · intro a ha; exact hLb a (List.mem_of_mem_erase ha)
      · exact le_trans (ls.left.erase_sublist id).length_le hLl
    · rw [if_neg h2]
      by_cases h3 : ls.right.contains id
      · rw [if_pos h3]
        refine ⟨hL, hR.sublist (ls.right.erase_sublist id), hLb, ?_, hLl, ?_⟩
        · intro a ha; exact hRb a (List.mem_of_mem_erase ha)
        · exact le_trans (ls.right.erase_sublist id).length_le hRl
      · rw [if_neg h3]; exact ⟨hL, hR, hLb, hRb, hLl, hRl⟩

/-- Witness for C9 at a concrete leaf set with owner 100 and two nodes per
side, inserting and removing node 95. -/
theorem leaf_set_invariant_witness :
    (⟨100, 8, [90, 80], [110, 120]⟩ : LeafSet).WF ∧
    ((⟨100, 8, [90, 80], [110, 120]⟩ : LeafSet).insert 95).WF ∧
    ((⟨100, 8, [90, 80], [110, 120]⟩ : LeafSet).remove 95).WF :=
  ⟨by unfold LeafSet.WF; decide,
   (leaf_set_invariant_preserved ⟨100, 8, [90, 80], [110, 120]⟩ 95
     (by unfold LeafSet.WF; decide)).1,
   (leaf_set_invariant_preserved ⟨100, 8, [90, 80], [110, 120]⟩ 95
     (by unfold LeafSet.WF; decide)).2⟩

/-- C10: a key stored with value `None` is indistinguishable from an absent
key at the DHT interface: `get_local` yields `None` either way, `lookup`
returns exactly what it returns for any data set missing the key, and
`update` reports failure and leaves the data unchanged — while the B+ tree
layer itself can tell the two apart (`in` is true for the stored-`None`
key, false for a missing one, even though `search` yields `None` for
both). -/
theorem none_value_indistinguishable (data : List (Nat × Option Nat)) (k : Nat)
    (hk : data.lookup k = some none) (selfId respId hops : Nat) (v : Option Nat) :
    getLocal data k = none ∧
    (∀ dataAbsent : List (Nat × Option Nat), dataAbsent.lookup k = none →
        baseLookupOutcome data selfId respId hops k =
          baseLookupOutcome dataAbsent selfId respId hops k) ∧
    baseUpdateOutcome data selfId respId hops k v =
      ((false, if respId ≠ selfId then hops + 1 else hops), data) ∧
    searchPy (treeInsert BPLUS_TREE_ORDER k (none : Option Nat) none) k = none ∧
    bplusContains (treeInsert BPLUS_TREE_ORDER k (none : Option Nat) none) k = true ∧
    bplusContains (none : Option (BPNode (Option Nat))) k = false := by
  have hget : getLocal data k = none := by simp [getLocal, hk]
  refine ⟨hget, ?_, ?_, ?_, ?_, rfl⟩
  · intro dataAbsent habs
    simp [baseLookupOutcome, getLocal, hk, habs]
  · simp [baseUpdateOutcome, hget]
  · simp [searchPy, treeSearch, treeInsert, searchAux, bisectLeft]
  · simp [bplusContains, treeInsert, searchAux, bisectLeft]

/-- Witness for C10: data `[(7, None)]` stores key 7 with value `None`. -/
theorem none_value_indistinguishable_witness :
    getLocal [(7, none)] 7 = none ∧
    (∀ dataAbsent : List (Nat × Option Nat), dataAbsent.lookup 7 = none →
        baseLookupOutcome [(7, none)] 1 2 3 7 =
          baseLookupOutcome dataAbsent 1 2 3 7) ∧
    baseUpdateOutcome [(7, none)] 1 2 3 7 (some 5) =
      ((false, if (2 : Nat) ≠ 1 then 3 + 1 else 3), [(7, none)]) ∧
    searchPy (treeInsert BPLUS_TREE_ORDER 7 (none : Option Nat) none) 7 = none ∧
    bplusContains (treeInsert BPLUS_TREE_ORDER 7 (none : Option Nat) none) 7 = true ∧
    bplusContains (none : Option (BPNode (Option Nat))) 7 = false :=
  none_value_indistinguishable [(7, none)] 7 (by decide) 1 2 3 (some 5)

theorem bisectLeft_nil (k : Nat) : bisectLeft [] k = 0 := rfl

theorem bisectLeft_cons (a k : Nat) (t : List Nat) :
    bisectLeft (a :: t) k = if a < k then bisectLeft t k + 1 else 0 := by
  by_cases h : a < k <;> simp [bisectLeft, List.takeWhile_cons, h]

theorem bisectLeft_drop {V : Type} (kvs : List (Nat × V)) (lo : Nat) :
    kvs.drop (bisectLeft (kvs.map Prod.fst) lo) = kvs.dropWhile (fun q => q.1 < lo) := by
  induction kvs with
  | nil => rfl
  | cons q t ih =>
    by_cases h : q.1 < lo <;>
      simp [bisectLeft_cons, List.dropWhile_cons, h, ih]

theorem bisectLeft_insertIdx {V : Type} (kvs : List (Nat × V)) (k : Nat) (v : V) :
    kvs.insertIdx (bisectLeft (kvs.map Prod.fst) k) (k, v)
      = kvs.takeWhile (fun q => q.1 < k) ++ (k, v) :: kvs.dropWhile (fun q => q.1 < k) := by
  induction kvs with
  | nil => rfl
  | cons q t ih =>
    by_cases h : q.1 < k <;>
      simp [bisectLeft_cons, List.takeWhile_cons, List.dropWhile_cons, h,
        List.insertIdx_succ_cons, List.insertIdx_zero, ih]

theorem bisectLeft_probe {V : Type} (kvs : List (Nat × V)) (k : Nat) :
    (kvs.map Prod.fst)[bisectLeft (kvs.map Prod.fst) k]?
      = ((kvs.dropWhile (fun q => q.1 < k)).head?).map Prod.fst := by
  induction kvs with
  | nil => rfl
  | cons q t ih =>
    by_cases h : q.1 < k <;>
      simp [bisectLeft_cons, List.dropWhile_cons, h, ih]

theorem bisectLeft_set {V : Type} (kvs : List (Nat × V)) (k : Nat) (v : V) :
    kvs.set (bisectLeft (kvs.map Prod.fst) k) (k, v)
      = kvs.takeWhile (fun q => q.1 < k) ++
          (match kvs.dropWhile (fun q => q.1 < k) with
           | [] => []
           | _ :: t => (k, v) :: t) := by
  induction kvs with
  | nil => rfl
  | cons q t ih =>
    by_cases h : q.1 < k <;>
      simp [bisectLeft_cons, List.takeWhile_cons, List.dropWhile_cons, h,
        List.set_cons_succ, List.set_cons_zero, ih]

theorem bisectLeft_eraseIdx {V : Type} (kvs : List (Nat × V)) (k : Nat) :
    kvs.eraseIdx (bisectLeft (kvs.map Prod.fst) k)
      = kvs.takeWhile (fun q => q.1 < k) ++ (kvs.dropWhile (fun q => q.1 < k)).tail := by
  induction kvs with
  | nil => rfl
  | cons q t ih =>
    by_cases h : q.1 < k <;>
      simp [bisectLeft_cons, List.takeWhile_cons, List.dropWhile_cons, h,
        List.eraseIdx_cons_succ, List.eraseIdx_cons_zero, ih]

theorem sorted_dropWhile_ge {V : Type} {kvs : List (Nat × V)} {k : Nat}
    (hs : (kvs.map Prod.fst).Pairwise (· < ·)) :
    ∀ q ∈ kvs.dropWhile (fun q => q.1 < k), k ≤ q.1 := by
  induction kvs with
  | nil => intro q hq; cases hq
  | cons p t ih =>
    simp only [List.map_cons, List.pairwise_cons] at hs
    intro q hq
    by_cases h : p.1 < k
    · rw [List.dropWhile_cons, if_pos (by simpa using h)] at hq
      exact ih hs.2 q hq
    · rw [List.dropWhile_cons, if_neg (by simpa using h)] at hq
      rcases List.mem_cons.mp hq with rfl | hq2
      · exact Nat.le_of_not_lt h
      · have : p.1 < q.1 := hs.1 q.1 (List.mem_map.mpr ⟨q, hq2, rfl⟩)
        omega

theorem dropWhile_append_all {α : Type} (p : α → Bool) (xs ys : List α)
    (h : ∀ x ∈ xs, p x) : (xs ++ ys).dropWhile p = ys.dropWhile p := by
  induction xs with
  | nil => rfl
  | cons x t ih =>
    simp only [List.cons_append, List.dropWhile_cons, h x (by simp), if_pos]
    exact ih (fun a ha => h a (by simp [ha]))

theorem dropWhile_append_keep {α : Type} (p : α → Bool) (xs ys : List α)
    (h : ∀ y ∈ ys, ¬ p y = true) : (xs ++ ys).dropWhile p = xs.dropWhile p ++ ys := by
  induction xs with
  | nil =>
    cases ys with
    | nil => rfl
    | cons y t => simp [List.dropWhile_cons, h y (by simp)]
  | cons x t ih =>
    by_cases hx : p x <;>
      simp [List.dropWhile_cons, hx, ih]

theorem sorted_dropWhile_eq_filter {V : Type} (kvs : List (Nat × V)) (lo : Nat)
    (hs : (kvs.map Prod.fst).Pairwise (· < ·)) :
    kvs.dropWhile (fun q => q.1 < lo) = kvs.filter (fun q => lo ≤ q.1) := by
  induction kvs with
  | nil => rfl
  | cons p t ih =>
    simp only [List.map_cons, List.pairwise_cons] at hs
    by_cases h : p.1 < lo
    · have : ¬ (lo ≤ p.1) := by omega
      simp [List.dropWhile_cons, List.filter_cons, h, this, ih hs.2]
    · have hle : lo ≤ p.1 := Nat.le_of_not_lt h
      have : t.filter (fun q => lo ≤ q.1) = t := by
        apply List.filter_eq_self.mpr
        intro q hq
        have : p.1 < q.1 := hs.1 q.1 (List.mem_map.mpr ⟨q, hq, rfl⟩)
        simpa using by omega
      simp [List.dropWhile_cons, List.filter_cons, h, hle, this]

theorem sorted_takeWhile_eq_filter {V : Type} (kvs : List (Nat × V)) (hi : Nat)
    (hs : (kvs.map Prod.fst).Pairwise (· < ·)) :
    kvs.takeWhile (fun q => q.1 ≤ hi) = kvs.filter (fun q => q.1 ≤ hi) := by
  induction kvs with
  | nil => rfl
  | cons p t ih =>
    simp only [List.map_cons, List.pairwise_cons] at hs
    by_cases h : p.1 ≤ hi
    · simp [List.takeWhile_cons, List.filter_cons, h, ih hs.2]
    · have : t.filter (fun q => q.1 ≤ hi) = [] := by
        apply List.filter_eq_nil_iff.mpr
        intro q hq
        have : p.1 < q.1 := hs.1 q.1 (List.mem_map.mpr ⟨q, hq, rfl⟩)
        simpa using by omega
      simp [List.takeWhile_cons, List.filter_cons, h, this]

theorem lbOK_trans {lb : Option Nat} {a b : Nat} (h1 : lbOK lb a) (h2 : a ≤ b) :
    lbOK lb b := by
  cases lb with
  | none => trivial
  | some x => exact le_trans h1 h2

theorem ubOK_trans {ub : Option Nat} {a b : Nat} (h1 : b ≤ a) (h2 : ubOK a ub) :
    ubOK b ub := by
  cases ub with
  | none => trivial
  | some x => exact lt_of_le_of_lt h1 h2

theorem WF.exists_key {V : Type} {O m h : Nat} {lb ub : Option Nat} {n : BPNode V}
    (hm : 1 ≤ m) (hw : WF O m h lb ub n) :
    ∃ key, lbOK lb key ∧ ubOK key ub := by
  match h, n with
  | 0, .leaf kvs =>
    obtain ⟨hs, hb, hc1, hc2⟩ := hw
    cases kvs with
    | nil => simp only [List.length_nil] at hc1; omega
    | cons p t => exact ⟨p.1, (hb p (by simp)).1, (hb p (by simp)).2⟩
  | 0, .internal keys children => exact absurd hw (by simp [WF])
  | h + 1, .leaf kvs => exact absurd hw (by simp [WF])
  | h + 1, .internal keys children =>
    obtain ⟨hc1, hc2, hf⟩ := hw
    cases keys with
    | nil => simp only [List.length_nil] at hc1; omega
    | cons s ks =>
      cases children with
      | nil => exact absurd hf (by simp [Fence])
      | cons c cs => exact ⟨s, hf.1, hf.2.1⟩

theorem mem_takeWhile_lt {V : Type} {kvs : List (Nat × V)} {k : Nat} {q : Nat × V}
    (h : q ∈ kvs.takeWhile (fun p => p.1 < k)) : q.1 < k := by
  have := List.mem_takeWhile_imp h
  simpa using this

theorem takeWhile_sub {V : Type} {kvs : List (Nat × V)} {k : Nat} {q : Nat × V}
    (h : q ∈ kvs.takeWhile (fun p => p.1 < k)) : q ∈ kvs :=
  (List.takeWhile_sublist _).mem h

theorem dropWhile_sub {V : Type} {kvs : List (Nat × V)} {k : Nat} {q : Nat × V}
    (h : q ∈ kvs.dropWhile (fun p => p.1 < k)) : q ∈ kvs :=
  (List.dropWhile_sublist _).mem h

theorem insert_leaf_wf {V : Type} {O minC k : Nat} (v : V) {lb ub : Option Nat}
    {kvs : List (Nat × V)} (hO : 3 ≤ O)
    (hw : WF O minC 0 lb ub (.leaf kvs)) (hlb : lbOK lb k) (hub : ubOK k ub) :
    InsertOK O minC 0 k v lb ub (.leaf kvs) := by
  obtain ⟨hs, hb, hc1, hc2⟩ := hw
  have hsplitkvs := (List.takeWhile_append_dropWhile (fun q => decide (q.1 < k)) kvs).symm
  unfold InsertOK
  rw [insertAux]
  by_cases hc : (kvs.map Prod.fst)[bisectLeft (kvs.map Prod.fst) k]? = some k
  · rw [if_pos hc]
    rw [bisectLeft_probe] at hc
    obtain ⟨w, t, hd⟩ : ∃ w t, kvs.dropWhile (fun q => q.1 < k) = w :: t := by
      cases hdw : kvs.dropWhile (fun q => q.1 < k) with
      | nil => rw [hdw] at hc; simp at hc
      | cons w t => exact ⟨w, t, rfl⟩
    have hwk : w.1 = k := by rw [hd] at hc; simpa using hc
    have hset : kvs.set (bisectLeft (kvs.map Prod.fst) k) (k, v)
        = kvs.takeWhile (fun q => q.1 < k) ++ (k, v) :: t := by
      rw [bisectLeft_set, hd]
    rw [hset]
    have hkvs2 : kvs = kvs.takeWhile (fun q => q.1 < k) ++ w :: t := by
      rw [← hd]
      exact hsplitkvs
    have hmapeq : ((kvs.takeWhile (fun q => q.1 < k) ++ (k, v) :: t).map Prod.fst)
        = kvs.map Prod.fst := by
      conv_rhs => rw [hkvs2]
      simp only [List.map_append, List.map_cons, hwk]
    have hleneq : (kvs.takeWhile (fun q => q.1 < k) ++ (k, v) :: t).length
        = kvs.length := by
      conv_rhs => rw [hkvs2]
      simp only [List.length_append, List.length_cons]
    refine ⟨by rw [hmapeq]; exact hs, ?_, by omega, by omega⟩
    intro p hp
    rcases List.mem_append.mp hp with hp1 | hp2
    · exact hb p (takeWhile_sub hp1)
    · rcases List.mem_cons.mp hp2 with rfl | hp3
      · exact ⟨hlb, hub⟩
      · refine hb p ?_
        rw [hkvs2]
        exact List.mem_append.mpr (Or.inr (by simp [hp3]))
  · rw [if_neg hc]
    rw [bisectLeft_probe] at hc
    have hdwgt : ∀ p ∈ kvs.dropWhile (fun q => q.1 < k), k < p.1 := by
      intro p hp
      have hge : k ≤ p.1 := sorted_dropWhile_ge hs p hp
      rcases Nat.lt_or_ge k p.1 with h1 | h1
      · exact h1
      · have hpk : p.1 = k := by omega
        cases hdd : kvs.dropWhile (fun q => q.1 < k) with
        | nil => rw [hdd] at hp; cases hp
        | cons w0 t0 =>
          rw [hdd] at hp
          rcases List.mem_cons.mp hp with rfl | hp3
          · exact absurd (by rw [hdd]; simp [hpk]) hc
          · have hw0 : k ≤ w0.1 := sorted_dropWhile_ge hs w0 (by rw [hdd]; simp)
            have hsdw : ((kvs.dropWhile (fun q => q.1 < k)).map Prod.fst).Pairwise (· < ·) :=
              hs.sublist ((List.dropWhile_sublist _).map _)
            rw [hdd] at hsdw
            simp only [List.map_cons, List.pairwise_cons] at hsdw
            have : w0.1 < p.1 := hsdw.1 p.1 (List.mem_map.mpr ⟨p, hp3, rfl⟩)
            omega
    rw [bisectLeft_insertIdx]
    have hsorted2 : ((kvs.takeWhile (fun q => q.1 < k) ++
        (k, v) :: kvs.dropWhile (fun q => q.1 < k)).map Prod.fst).Pairwise (· < ·) := by
      rw [List.map_append, List.map_cons]
      apply List.pairwise_append.mpr
      refine ⟨hs.sublist ((List.takeWhile_sublist _).map _), ?_, ?_⟩
      · apply List.pairwise_cons.mpr
        refine ⟨?_, hs.sublist ((List.dropWhile_sublist _).map _)⟩
        intro y hy
        obtain ⟨p, hp, rfl⟩ := List.mem_map.mp hy
        exact hdwgt p hp
      · intro x hx y hy
        obtain ⟨p, hp, rfl⟩ := List.mem_map.mp hx
        have hpk : p.1 < k := mem_takeWhile_lt hp
        rcases List.mem_cons.mp hy with rfl | hy2
        · exact hpk
        · obtain ⟨p2, hp2, rfl⟩ := List.mem_map.mp hy2
          have := hdwgt p2 hp2
          omega
    have hbounds2 : ∀ p ∈ kvs.takeWhile (fun q => q.1 < k) ++
        (k, v) :: kvs.dropWhile (fun q => q.1 < k), lbOK lb p.1 ∧ ubOK p.1 ub := by
      intro p hp
      rcases List.mem_append.mp hp with hp1 | hp2
      · exact hb p (takeWhile_sub hp1)
      · rcases List.mem_cons.mp hp2 with rfl | hp3
        · exact ⟨hlb, hub⟩
        · exact hb p (dropWhile_sub hp3)
    have hlen2 : (kvs.takeWhile (fun q => q.1 < k) ++
        (k, v) :: kvs.dropWhile (fun q => q.1 < k)).length = kvs.length + 1 := by
      conv_rhs => rw [hsplitkvs]
      simp only [List.length_append, List.length_cons]
      omega
    set L := kvs.takeWhile (fun q => q.1 < k) ++
        (k, v) :: kvs.dropWhile (fun q => q.1 < k) with hL
    by_cases hov : O ≤ L.length
    · rw [if_pos hov]
      have hlenO : L.length = O := by omega
      simp only [splitLeaf]
      cases hdrop : L.drop (L.length / 2) with
      | nil =>
        exfalso
        have := List.drop_eq_nil_iff.mp hdrop
        omega
      | cons p rest =>
        have hLsplit : L = L.take (L.length / 2) ++ p :: rest := by
          conv_lhs => rw [← List.take_append_drop (L.length / 2) L]
          rw [hdrop]
        have hlentake : (L.take (L.length / 2)).length = O / 2 := by
          rw [List.length_take]; omega
        have hlenrest : (p :: rest).length = O - O / 2 := by
          have h9 := congrArg List.length hdrop
          rw [List.length_drop] at h9
          omega
        have hsortedL : (L.map Prod.fst).Pairwise (· < ·) := hsorted2
        have hboundsL : ∀ q ∈ L, lbOK lb q.1 ∧ ubOK q.1 ub := hbounds2
        have hcross : ∀ x ∈ (L.take (L.length / 2)).map Prod.fst,
            ∀ y ∈ (p :: rest).map Prod.fst, x < y := by
          have h8 := hsortedL
          rw [hLsplit, List.map_append] at h8
          exact fun x hx y hy => (List.pairwise_append.mp h8).2.2 x hx y hy
        refine ⟨?_, ?_, ?_, ?_⟩
        · refine ⟨hsortedL.sublist ((List.take_sublist _ _).map _), ?_, ?_, ?_⟩
          · intro q hq
            refine ⟨(hboundsL q (List.mem_of_mem_take hq)).1, ?_⟩
            show q.1 < p.1
            exact hcross q.1 (List.mem_map.mpr ⟨q, hq, rfl⟩) p.1 (by simp)
          · rw [hlentake]
            unfold minKeys
            omega
          · rw [hlentake]; omega
        · have hrests : ((p :: rest).map Prod.fst).Pairwise (· < ·) := by
            rw [← hdrop]
            exact hsortedL.sublist ((List.drop_sublist _ _).map _)
          refine ⟨hrests, ?_, ?_, ?_⟩
          · intro q hq
            rcases List.mem_cons.mp hq with rfl | hq2
            · exact ⟨le_refl _, (hboundsL q (by rw [hLsplit]; simp)).2⟩
            · constructor
              · show p.1 ≤ q.1
                simp only [List.map_cons, List.pairwise_cons] at hrests
                exact le_of_lt (hrests.1 q.1 (List.mem_map.mpr ⟨q, hq2, rfl⟩))
              · exact (hboundsL q (by rw [hLsplit]; simp [hq2])).2
          · rw [hlenrest]
            unfold minKeys
            omega
          · rw [hlenrest]; omega
        · exact (hboundsL p (by rw [hLsplit]; simp)).1
        · exact (hboundsL p (by rw [hLsplit]; simp)).2
    · rw [if_neg hov]
      exact ⟨hsorted2, hbounds2, by omega, by omega⟩

theorem fence_split {V : Type} {O h : Nat} (hO : 3 ≤ O) :
    ∀ (ks1 : List Nat) {s : Nat} {ks2 : List Nat} {cs : List (BPNode V)}
      {lb ub : Option Nat},
    Fence O h lb ub (ks1 ++ s :: ks2) cs →
    Fence O h lb (some s) ks1 (cs.take (ks1.length + 1)) ∧
    Fence O h (some s) ub ks2 (cs.drop (ks1.length + 1)) ∧
    (∀ a, lb = some a → a < s) ∧ ubOK s ub := by
  intro ks1
  induction ks1 with
  | nil =>
    intro s ks2 cs lb ub hf
    cases cs with
    | nil => exact absurd hf (by simp [Fence])
    | cons c cs2 =>
      obtain ⟨h1, h2, h3, h4⟩ := hf
      have hminK : 1 ≤ minKeys O := by unfold minKeys; omega
      obtain ⟨key, hk1, hk2⟩ := WF.exists_key hminK h3
      refine ⟨by simpa [Fence] using h3, by simpa using h4, ?_, h2⟩
      intro a ha
      rw [ha] at hk1
      exact lt_of_le_of_lt hk1 hk2
  | cons s1 ks1 ih =>
    intro s ks2 cs lb ub hf
    cases cs with
    | nil => exact absurd hf (by simp [Fence])
    | cons c cs2 =>
      obtain ⟨h1, h2, h3, h4⟩ := hf
      obtain ⟨hA, hB, hC, hD⟩ := ih h4
      refine ⟨?_, by simpa using hB, ?_, hD⟩
      · show Fence O h lb (some s) (s1 :: ks1) (c :: cs2.take (ks1.length + 1))
        exact ⟨h1, hC s1 rfl, h3, hA⟩
      · intro a ha
        have ha1 : a ≤ s1 := by rw [ha] at h1; exact h1
        exact lt_of_le_of_lt ha1 (hC s1 rfl)

theorem insGo_wf_of {V : Type} {O h k : Nat} (v : V) (hO : 3 ≤ O)
    (hA : ∀ minC lb ub (n : BPNode V), WF O minC h lb ub n → lbOK lb k →
      ubOK k ub → InsertOK O minC h k v lb ub n) :
    ∀ (ks : List Nat) (cs : List (BPNode V)) (lb ub : Option Nat),
      Fence O h lb ub ks cs → lbOK lb k → ubOK k ub →
      InsGoOK O h k v lb ub ks cs := by
  intro ks
  induction ks with
  | nil =>
    intro cs lb ub hf hlb hub
    match cs with
    | [] => exact absurd hf (by simp [Fence])
    | c :: c2 :: cs3 => exact absurd hf (by simp [Fence])
    | [c] =>
      have hwc : WF O (minKeys O) h lb ub c := by simpa [Fence] using hf
      have hI := hA (minKeys O) lb ub c hwc hlb hub
      unfold InsertOK at hI
      unfold InsGoOK
      rw [insGo]
      cases hJ : insertAux O k v c with
      | one c2 =>
        rw [hJ] at hI
        exact ⟨by simpa [Fence] using hI, by simp⟩
      | two l t r =>
        rw [hJ] at hI
        exact ⟨⟨hI.2.2.1, hI.2.2.2, hI.1, by simpa [Fence] using hI.2.1⟩, by simp⟩
  | cons s ks ih =>
    intro cs lb ub hf hlb hub
    cases cs with
    | nil => exact absurd hf (by simp [Fence])
    | cons c cs2 =>
      obtain ⟨hs1, hs2, hwc, hfrest⟩ := hf
      unfold InsGoOK
      rw [insGo]
      by_cases hsk : s ≤ k
      · rw [if_pos hsk]
        have hrec := ih cs2 (some s) ub hfrest hsk hub
        unfold InsGoOK at hrec
        rcases hP : insGo O k v ks cs2 with ⟨ks2, cs3⟩
        rw [hP] at hrec
        refine ⟨?_, ?_⟩
        · show Fence O h lb ub (s :: ks2) (c :: cs3)
          exact ⟨hs1, hs2, hwc, hrec.1⟩
        · show (s :: ks2).length = (s :: ks).length ∨
              (s :: ks2).length = (s :: ks).length + 1
          rcases hrec.2 with hl | hl
          · left; simp [hl]
          · right; simp [hl]
      · rw [if_neg hsk]
        have hks : k < s := Nat.lt_of_not_le hsk
        have hI := hA (minKeys O) lb (some s) c hwc hlb hks
        unfold InsertOK at hI
        cases hJ : insertAux O k v c with
        | one c2 =>
          rw [hJ] at hI
          exact ⟨⟨hs1, hs2, hI, hfrest⟩, by simp⟩
        | two l t r =>
          rw [hJ] at hI
          obtain ⟨hwl, hwr, hlt, htub⟩ := hI
          have hts : t ≤ s := le_of_lt htub
          exact ⟨⟨hlt, ubOK_trans hts hs2, hwl, hts, hs2, hwr, hfrest⟩, by simp⟩

theorem insert_internal_wf {V : Type} {O minC k h : Nat} (v : V)
    {lb ub : Option Nat} {keys : List Nat} {children : List (BPNode V)}
    (hO : 3 ≤ O)
    (hw : WF O minC (h + 1) lb ub (.internal keys children))
    (hgo : InsGoOK O h k v lb ub keys children) :
    InsertOK O minC (h + 1) k v lb ub (.internal keys children) := by
  obtain ⟨hc1, hc2, hf⟩ := hw
  rcases hP : insGo O k v keys children with ⟨ks2, cs2⟩
  unfold InsGoOK at hgo
  rw [hP] at hgo
  simp only at hgo
  obtain ⟨hf2, hlen⟩ := hgo
  have hIA : insertAux O k v (BPNode.internal keys children) =
      (if O ≤ ks2.length then splitInternal ks2 cs2
       else .one (.internal ks2 cs2)) := by
    rw [insertAux, hP]
  unfold InsertOK
  rw [hIA]
  by_cases hov : O ≤ ks2.length
  · rw [if_pos hov]
    have hlenO : ks2.length = O := by omega
    simp only [splitInternal]
    rw [hlenO]
    cases hdropk : ks2.drop (O / 2) with
    | nil =>
      exfalso
      have hd9 := List.drop_eq_nil_iff.mp hdropk
      omega
    | cons s ksR =>
      have hsplitks : ks2 = ks2.take (O / 2) ++ s :: ksR := by
        conv_lhs => rw [← List.take_append_drop (O / 2) ks2]
        rw [hdropk]
      have hFs := fence_split hO (ks2.take (O / 2))
        (by rw [← hsplitks]; exact hf2)
      have hlent : (ks2.take (O / 2)).length = O / 2 := by
        rw [List.length_take]; omega
      rw [hlent] at hFs
      obtain ⟨hFl, hFr, hstrict, hsub⟩ := hFs
      have hlenR : ksR.length = O - O / 2 - 1 := by
        have h9 := congrArg List.length hdropk
        rw [List.length_drop, hlenO] at h9
        simp at h9
        omega
      refine ⟨⟨?_, ?_, hFl⟩, ⟨?_, ?_, hFr⟩, ?_, hsub⟩
      · rw [hlent]; unfold minKeys; omega
      · rw [hlent]; omega
      · rw [hlenR]; unfold minKeys; omega
      · rw [hlenR]; omega
      · cases lb with
        | none => trivial
        | some a => exact le_of_lt (hstrict a rfl)
  · rw [if_neg hov]
    exact ⟨by omega, by omega, hf2⟩

theorem insert_wf_all {V : Type} (O k : Nat) (v : V) (hO : 3 ≤ O) :
    ∀ (h minC : Nat) (lb ub : Option Nat) (n : BPNode V),
      WF O minC h lb ub n → lbOK lb k → ubOK k ub →
      InsertOK O minC h k v lb ub n := by
  intro h
  induction h with
  | zero =>
    intro minC lb ub n hw hlb hub
    cases n with
    | leaf kvs => exact insert_leaf_wf v hO hw hlb hub
    | internal keys children => exact absurd hw (by simp [WF])
  | succ h ih =>
    intro minC lb ub n hw hlb hub
    cases n with
    | leaf kvs => exact absurd hw (by simp [WF])
    | internal keys children =>
      exact insert_internal_wf v hO hw
        (insGo_wf_of v hO (fun minC2 lb2 ub2 n2 => ih minC2 lb2 ub2 n2)
          keys children lb ub hw.2.2 hlb hub)

theorem treeInsert_wf {V : Type} (O k : Nat) (v : V) (hO : 3 ≤ O)
    (t : Option (BPNode V)) (hr : RootWF O t) : RootWF O (treeInsert O k v t) := by
  cases t with
  | none =>
    refine ⟨0, ?_, ?_, ?_, ?_⟩
    · simp
    · intro p hp; simp at hp; subst hp; exact ⟨trivial, trivial⟩
    · simp
    · simp; omega
  | some root =>
    obtain ⟨h, hw⟩ := hr
    have hI := insert_wf_all O k v hO h 1 none none root hw trivial trivial
    unfold InsertOK at hI
    have hT : treeInsert O k v (some root) =
        (match insertAux O k v root with
         | .one r => some r
         | .two l s r => some (.internal [s] [l, r])) := rfl
    rw [hT]
    cases hJ : insertAux O k v root with
    | one r =>
      rw [hJ] at hI
      exact ⟨h, hI⟩
    | two l s r =>
      rw [hJ] at hI
      obtain ⟨hwl, hwr, hlb9, hub9⟩ := hI
      exact ⟨h + 1, by simp, by simp only [List.length_singleton]; omega,
        trivial, trivial, hwl, hwr⟩

theorem WF_of_count {V : Type} {O a b h : Nat} {lb ub : Option Nat} {n : BPNode V}
    (hw : WF O a h lb ub n) (hb : b ≤ keyCount n) : WF O b h lb ub n := by
  match h, n with
  | 0, .leaf kvs =>
    obtain ⟨h1, h2, h3, h4⟩ := hw
    exact ⟨h1, h2, by simpa [keyCount] using hb, h4⟩
  | 0, .internal keys children => exact absurd hw (by simp [WF])
  | h + 1, .leaf kvs => exact absurd hw (by simp [WF])
  | h + 1, .internal keys children =>
    obtain ⟨h1, h2, h3⟩ := hw
    exact ⟨by simpa [keyCount] using hb, h2, h3⟩

theorem WF_mono_minC {V : Type} {O a b h : Nat} {lb ub : Option Nat} {n : BPNode V}
    (hba : b ≤ a) (hw : WF O a h lb ub n) : WF O b h lb ub n := by
  match h, n with
  | 0, .leaf kvs => obtain ⟨h1, h2, h3, h4⟩ := hw; exact ⟨h1, h2, by omega, h4⟩
  | 0, .internal keys children => exact absurd hw (by simp [WF])
  | h + 1, .leaf kvs => exact absurd hw (by simp [WF])
  | h + 1, .internal keys children =>
    obtain ⟨h1, h2, h3⟩ := hw
    exact ⟨by omega, h2, h3⟩

theorem fence_length {V : Type} {O h : Nat} :
    ∀ {ks : List Nat} {cs : List (BPNode V)} {lb ub : Option Nat},
      Fence O h lb ub ks cs → cs.length = ks.length + 1 := by
  intro ks
  induction ks with
  | nil =>
    intro cs lb ub hf
    match cs with
    | [] => exact absurd hf (by simp [Fence])
    | [c] => simp
    | c :: c2 :: cs3 => exact absurd hf (by simp [Fence])
  | cons s ks ih =>
    intro cs lb ub hf
    match cs with
    | [] => exact absurd hf (by simp [Fence])
    | c :: cs2 =>
      have h9 := ih hf.2.2.2
      simp [h9]

theorem fence_nil_children {V : Type} {O h : Nat} {ks : List Nat}
    {lb ub : Option Nat} (hf : Fence O h lb ub ks ([] : List (BPNode V))) :
    False := by
  cases ks with
  | nil => exact absurd hf (by simp [Fence])
  | cons s ks => exact absurd hf (by simp [Fence])

theorem fence_exists_key {V : Type} {O h : Nat} {ks : List Nat}
    {cs : List (BPNode V)} {lb ub : Option Nat} (hO : 3 ≤ O)
    (hf : Fence O h lb ub ks cs) : ∃ key, lbOK lb key ∧ ubOK key ub := by
  have hm : 1 ≤ minKeys O := by unfold minKeys; omega
  match ks, cs with
  | [], [] => exact absurd hf (by simp [Fence])
  | [], [c] => exact WF.exists_key hm (by simpa [Fence] using hf)
  | [], c :: c2 :: cs2 => exact absurd hf (by simp [Fence])
  | s :: ks, [] => exact absurd hf (by simp [Fence])
  | s :: ks, c :: cs2 =>
    obtain ⟨h1, h2, h3, h4⟩ := hf
    obtain ⟨key, hk1, hk2⟩ := WF.exists_key hm h3
    exact ⟨key, hk1, ubOK_trans (le_of_lt hk2) h2⟩

theorem fence_append_sep {V : Type} {O h : Nat} (hO : 3 ≤ O) :
    ∀ (ks1 : List Nat) (cs1 : List (BPNode V)) {s : Nat} {ks2 : List Nat}
      {cs2 : List (BPNode V)} {lb ub : Option Nat},
      Fence O h lb (some s) ks1 cs1 → ubOK s ub →
      Fence O h (some s) ub ks2 cs2 →
      Fence O h lb ub (ks1 ++ s :: ks2) (cs1 ++ cs2) := by
  intro ks1
  induction ks1 with
  | nil =>
    intro cs1 s ks2 cs2 lb ub hf1 hub hf2
    match cs1 with
    | [] => exact absurd hf1 (by simp [Fence])
    | c :: c2 :: cs3 => exact absurd hf1 (by simp [Fence])
    | [c] =>
      have hwc : WF O (minKeys O) h lb (some s) c := by simpa [Fence] using hf1
      have hm : 1 ≤ minKeys O := by unfold minKeys; omega
      obtain ⟨key, hk1, hk2⟩ := WF.exists_key hm hwc
      exact ⟨lbOK_trans hk1 (le_of_lt hk2), hub, hwc, hf2⟩
  | cons s1 ks1 ih =>
    intro cs1 s ks2 cs2 lb ub hf1 hub hf2
    match cs1 with
    | [] => exact absurd hf1 (by simp [Fence])
    | c :: cs3 =>
      obtain ⟨h1, h2, h3, h4⟩ := hf1
      exact ⟨h1, ubOK_trans (le_of_lt h2) hub, h3, ih cs3 h4 hub hf2⟩

theorem nonRootLeavesOk_cons {V : Type} (m : Nat) (c : BPNode V)
    (cs : List (BPNode V)) :
    nonRootLeavesOk m (c :: cs) = (nonRootLeavesOk m [c] && nonRootLeavesOk m cs) := by
  cases c with
  | leaf kvs => simp [nonRootLeavesOk, Bool.and_assoc]
  | internal keys children => simp [nonRootLeavesOk, Bool.and_assoc]

theorem delete_leaf_wf {V : Type} {O minC k : Nat} {lb ub : Option Nat}
    {kvs : List (Nat × V)} (hw : WF O minC 0 lb ub (.leaf kvs)) :
    WF O (minC - 1) 0 lb ub (.leaf (eraseKeyKvs k kvs)) := by
  obtain ⟨h1, h2, h3, h4⟩ := hw
  unfold eraseKeyKvs
  by_cases hp : (kvs.map Prod.fst)[bisectLeft (kvs.map Prod.fst) k]? = some k
  · rw [if_pos hp]
    have hidx : bisectLeft (kvs.map Prod.fst) k < kvs.length := by
      by_contra hge
      rw [List.getElem?_eq_none (by simpa using Nat.le_of_not_lt hge)] at hp
      exact absurd hp (by simp)
    refine ⟨?_, ?_, ?_, ?_⟩
    · exact h1.sublist ((List.eraseIdx_sublist kvs _).map Prod.fst)
    · intro p hp2
      exact h2 p ((List.eraseIdx_sublist kvs _).subset hp2)
    · rw [List.length_eraseIdx_of_lt hidx]; omega
    · rw [List.length_eraseIdx_of_lt hidx]; omega
  · rw [if_neg hp]
    exact ⟨h1, h2, by omega, h4⟩

theorem getLast?_decomp {α : Type} {l : List α} {a : α}
    (h : l.getLast? = some a) : l = l.dropLast ++ [a] := by
  have hne : l ≠ [] := by rintro rfl; simp at h
  have h2 := List.getLast?_eq_getLast l hne
  rw [h2] at h
  injection h with h3
  rw [← h3]
  exact (List.dropLast_append_getLast hne).symm

theorem pairRight_wf {V : Type} {O : Nat} (hO : 3 ≤ O) :
    ∀ {h : Nat} {lb ub2 : Option Nat} {s : Nat} {c rc : BPNode V},
      WF O (minKeys O - 1) h lb (some s) c → keyCount c < minKeys O →
      WF O (minKeys O) h (some s) ub2 rc → lbOK lb s → ubOK s ub2 →
      (∃ cN sN rcN, tryBorrowRight O s c rc = some (cN, sN, rcN) ∧
        WF O (minKeys O) h lb (some sN) cN ∧
        WF O (minKeys O) h (some sN) ub2 rcN ∧ lbOK lb sN ∧ ubOK sN ub2) ∨
      (tryBorrowRight O s c rc = none ∧
        ∃ mg, tryMergeRight s c rc = some mg ∧ WF O (minKeys O) h lb ub2 mg) := by
  intro h lb ub2 s c rc hc hcnt hr hlbs hsub
  have hm : 1 ≤ minKeys O := by unfold minKeys; omega
  have hmO : minKeys O ≤ O - 1 := by unfold minKeys; omega
  have h2m : 2 * minKeys O ≤ O - 1 := by unfold minKeys; omega
  match h, c, rc with
  | 0, .leaf ckvs, .leaf rkvs =>
    obtain ⟨hc1, hc2, hc3, hc4⟩ := hc
    obtain ⟨hr1, hr2, hr3, hr4⟩ := hr
    simp only [keyCount] at hcnt
    have hckey : ∀ q ∈ ckvs, (q : Nat × V).1 < s := fun q hq => (hc2 q hq).2
    by_cases hbw : minKeys O < rkvs.length
    · rcases rkvs with _ | ⟨p, rt⟩
      · exfalso; simp only [List.length_nil] at hr3; omega
      rcases rt with _ | ⟨q, rtl⟩
      · exfalso; simp only [List.length_cons, List.length_nil] at hbw; omega
      have hsp : s ≤ p.1 := (hr2 p (by simp)).1
      have hsq : s ≤ q.1 := (hr2 q (by simp)).1
      have hqub : ubOK q.1 ub2 := (hr2 q (by simp)).2
      rw [List.map_cons, List.map_cons, List.pairwise_cons] at hr1
      obtain ⟨hpall, hr1a⟩ := hr1
      have hpq : p.1 < q.1 := hpall q.1 (by simp)
      rw [List.pairwise_cons] at hr1a
      obtain ⟨hqall, hrtl⟩ := hr1a
      left
      refine ⟨.leaf (ckvs ++ [p]), q.1, .leaf (q :: rtl),
        by simp only [tryBorrowRight]; rw [if_pos hbw], ?_, ?_,
        lbOK_trans hlbs hsq, hqub⟩
      · refine ⟨?_, ?_, ?_, ?_⟩
        · rw [List.map_append, List.pairwise_append]
          refine ⟨hc1, by simp, ?_⟩
          intro x hx y hy
          simp only [List.map_cons, List.map_nil, List.mem_singleton] at hy
          subst hy
          obtain ⟨pr, hpr, rfl⟩ := List.mem_map.mp hx
          exact lt_of_lt_of_le (hckey pr hpr) hsp
        · intro pr hpr
          rcases List.mem_append.mp hpr with hL | hR
          · exact ⟨(hc2 pr hL).1, lt_of_lt_of_le (hckey pr hL) hsq⟩
          · simp only [List.mem_singleton] at hR
            subst hR
            exact ⟨lbOK_trans hlbs hsp, hpq⟩
        · simp only [List.length_append, List.length_cons, List.length_nil]; omega
        · simp only [List.length_append, List.length_cons, List.length_nil]; omega
      · refine ⟨?_, ?_, ?_, ?_⟩
        · rw [List.map_cons, List.pairwise_cons]; exact ⟨hqall, hrtl⟩
        · intro pr hpr
          rcases List.mem_cons.mp hpr with rfl | hM
          · exact ⟨le_refl _, hqub⟩
          · exact ⟨le_of_lt (hqall pr.1 (List.mem_map_of_mem _ hM)),
              (hr2 pr (by simp [hM])).2⟩
        · simp only [List.length_cons]; simp only [List.length_cons] at hbw; omega
        · simp only [List.length_cons]; simp only [List.length_cons] at hr4; omega
    · right
      refine ⟨by simp [tryBorrowRight, hbw], .leaf (ckvs ++ rkvs),
        by simp [tryMergeRight], ?_, ?_, ?_, ?_⟩
      · rw [List.map_append, List.pairwise_append]
        refine ⟨hc1, hr1, ?_⟩
        intro x hx y hy
        obtain ⟨pr, hpr, rfl⟩ := List.mem_map.mp hx
        obtain ⟨qr, hqr, rfl⟩ := List.mem_map.mp hy
        exact lt_of_lt_of_le (hckey pr hpr) (hr2 qr hqr).1
      · intro pr hpr
        rcases List.mem_append.mp hpr with hL | hR
        · exact ⟨(hc2 pr hL).1, ubOK_trans (le_of_lt (hckey pr hL)) hsub⟩
        · exact ⟨lbOK_trans hlbs (hr2 pr hR).1, (hr2 pr hR).2⟩
      · simp only [List.length_append]; omega
      · simp only [List.length_append]; omega
  | 0, .leaf ckvs, .internal a b => exact absurd hr (by simp [WF])
  | 0, .internal a b, rc => exact absurd hc (by simp [WF])
  | h + 1, .leaf a, rc => exact absurd hc (by simp [WF])
  | h + 1, .internal a b, .leaf d => exact absurd hr (by simp [WF])
  | h + 1, .internal ckeys cch, .internal rkeys rch =>
    obtain ⟨hc1, hc2, hcf⟩ := hc
    obtain ⟨hr1, hr2, hrf⟩ := hr
    simp only [keyCount] at hcnt
    by_cases hbw : minKeys O < rkeys.length
    · rcases rkeys with _ | ⟨rk, rks⟩
      · exfalso; simp only [List.length_nil] at hbw; omega
      rcases rch with _ | ⟨rc0, rchs⟩
      · exact absurd hrf fence_nil_children
      obtain ⟨hf1, hf2, hf3, hf4⟩ := hrf
      obtain ⟨key, hk1, hk2⟩ := WF.exists_key hm hf3
      have hsrk : s < rk := lt_of_le_of_lt hk1 hk2
      left
      refine ⟨.internal (ckeys ++ [s]) (cch ++ [rc0]), rk, .internal rks rchs,
        by simp only [tryBorrowRight]; rw [if_pos hbw], ?_, ?_,
        lbOK_trans hlbs (le_of_lt hsrk), hf2⟩
      · refine ⟨?_, ?_, ?_⟩
        · simp only [List.length_append, List.length_cons, List.length_nil]; omega
        · simp only [List.length_append, List.length_cons, List.length_nil]; omega
        · exact fence_append_sep hO ckeys cch hcf hsrk (by simpa [Fence] using hf3)
      · refine ⟨?_, ?_, hf4⟩
        · simp only [List.length_cons] at hbw; omega
        · simp only [List.length_cons] at hr2; omega
    · right
      refine ⟨by simp [tryBorrowRight, hbw],
        .internal (ckeys ++ s :: rkeys) (cch ++ rch),
        by simp [tryMergeRight], ?_, ?_,
        fence_append_sep hO ckeys cch hcf hsub hrf⟩
      · simp only [List.length_append, List.length_cons]; omega
      · simp only [List.length_append, List.length_cons]; omega

theorem take_drop_of_concat {α : Type} {l init : List α} {a : α}
    (h : l = init ++ [a]) :
    l.take init.length = init ∧ l.drop init.length = [a] := by
  subst h
  exact ⟨List.take_left init [a], List.drop_left init [a]⟩

theorem pairLeft_wf {V : Type} {O : Nat} (hO : 3 ≤ O) :
    ∀ {h : Nat} {lb ub : Option Nat} {ls : Nat} {lc c : BPNode V},
      WF O (minKeys O) h lb (some ls) lc →
      WF O (minKeys O - 1) h (some ls) ub c → keyCount c < minKeys O →
      lbOK lb ls → ubOK ls ub →
      (∃ lcN lsN cN, tryBorrowLeft O ls lc c = some (lcN, lsN, cN) ∧
        WF O (minKeys O) h lb (some lsN) lcN ∧
        WF O (minKeys O) h (some lsN) ub cN ∧ lbOK lb lsN ∧ ubOK lsN ub) ∨
      (tryBorrowLeft O ls lc c = none ∧
        ∃ mg, tryMergeLeft ls lc c = some mg ∧ WF O (minKeys O) h lb ub mg) := by
  intro h lb ub ls lc c hl hc hcnt hlb hub
  have hm : 1 ≤ minKeys O := by unfold minKeys; omega
  have hmO : minKeys O ≤ O - 1 := by unfold minKeys; omega
  have h2m : 2 * minKeys O ≤ O - 1 := by unfold minKeys; omega
  match h, lc, c with
  | 0, .leaf lkvs, .leaf ckvs =>
    obtain ⟨hl1, hl2, hl3, hl4⟩ := hl
    obtain ⟨hc1, hc2, hc3, hc4⟩ := hc
    simp only [keyCount] at hcnt
    have hlkey : ∀ q ∈ lkvs, (q : Nat × V).1 < ls := fun q hq => (hl2 q hq).2
    have hckey : ∀ q ∈ ckvs, ls ≤ (q : Nat × V).1 := fun q hq => (hc2 q hq).1
    by_cases hbw : minKeys O < lkvs.length
    · have hne : lkvs ≠ [] := by
        intro h9; rw [h9] at hbw
        simp only [List.length_nil] at hbw; omega
      have heq := List.getLast?_eq_getLast lkvs hne
      set p := lkvs.getLast hne with hp
      have hsplit : lkvs = lkvs.dropLast ++ [p] := getLast?_decomp heq
      have hpmem : p ∈ lkvs := by rw [hsplit]; simp
      have hpls : p.1 < ls := hlkey p hpmem
      have hl1b := hl1
      rw [hsplit, List.map_append, List.pairwise_append] at hl1b
      obtain ⟨hdp, _, hcross⟩ := hl1b
      left
      refine ⟨.leaf lkvs.dropLast, p.1, .leaf (p :: ckvs),
        by simp only [tryBorrowLeft]; rw [if_pos hbw, heq], ?_, ?_,
        (hl2 p hpmem).1, ubOK_trans (le_of_lt hpls) hub⟩
      · refine ⟨?_, ?_, ?_, ?_⟩
        · exact hl1.sublist ((List.dropLast_sublist lkvs).map Prod.fst)
        · intro q hq
          refine ⟨(hl2 q ((List.dropLast_sublist lkvs).subset hq)).1, ?_⟩
          exact hcross q.1 (List.mem_map_of_mem _ hq) p.1 (by simp)
        · rw [List.length_dropLast]; omega
        · rw [List.length_dropLast]; omega
      · refine ⟨?_, ?_, ?_, ?_⟩
        · rw [List.map_cons, List.pairwise_cons]
          refine ⟨?_, hc1⟩
          intro y hy
          obtain ⟨qr, hqr, rfl⟩ := List.mem_map.mp hy
          exact lt_of_lt_of_le hpls (hckey qr hqr)
        · intro pr hpr
          rcases List.mem_cons.mp hpr with rfl | hM
          · exact ⟨le_refl _, ubOK_trans (le_of_lt hpls) hub⟩
          · exact ⟨le_of_lt (lt_of_lt_of_le hpls (hckey pr hM)), (hc2 pr hM).2⟩
        · simp only [List.length_cons]; omega
        · simp only [List.length_cons]; omega
    · right
      refine ⟨by simp [tryBorrowLeft, hbw], .leaf (lkvs ++ ckvs),
        by simp [tryMergeLeft], ?_, ?_, ?_, ?_⟩
      · rw [List.map_append, List.pairwise_append]
        refine ⟨hl1, hc1, ?_⟩
        intro x hx y hy
        obtain ⟨pr, hpr, rfl⟩ := List.mem_map.mp hx
        obtain ⟨qr, hqr, rfl⟩ := List.mem_map.mp hy
        exact lt_of_lt_of_le (hlkey pr hpr) (hckey qr hqr)
      · intro pr hpr
        rcases List.mem_append.mp hpr with hL | hR
        · exact ⟨(hl2 pr hL).1, ubOK_trans (le_of_lt (hlkey pr hL)) hub⟩
        · exact ⟨lbOK_trans hlb (hckey pr hR), (hc2 pr hR).2⟩
      · simp only [List.length_append]; omega
      · simp only [List.length_append]; omega
  | 0, .leaf lkvs, .internal a b => exact absurd hc (by simp [WF])
  | 0, .internal a b, c => exact absurd hl (by simp [WF])
  | h + 1, .leaf a, c => exact absurd hl (by simp [WF])
  | h + 1, .internal a b, .leaf d => exact absurd hc (by simp [WF])
  | h + 1, .internal lkeys lch, .internal ckeys cch =>
    obtain ⟨hl1, hl2, hlf⟩ := hl
    obtain ⟨hc1, hc2, hcf⟩ := hc
    simp only [keyCount] at hcnt
    by_cases hbw : minKeys O < lkeys.length
    · have hne : lkeys ≠ [] := by
        intro h9; rw [h9] at hbw
        simp only [List.length_nil] at hbw; omega
      have hkeq := List.getLast?_eq_getLast lkeys hne
      set lk := lkeys.getLast hne with hlk
      have hksplit : lkeys = lkeys.dropLast ++ [lk] := getLast?_decomp hkeq
      have hchlen : lch.length = lkeys.length + 1 := fence_length hlf
      have hchne : lch ≠ [] := by
        intro h9; rw [h9] at hchlen; simp at hchlen
      have hceq := List.getLast?_eq_getLast lch hchne
      set lc2 := lch.getLast hchne with hlc2
      have hcsplit : lch = lch.dropLast ++ [lc2] := getLast?_decomp hceq
      have hFs := fence_split hO lkeys.dropLast
        (by rw [← hksplit]; exact hlf)
      obtain ⟨hFl, hFr, hstrict, hlkls⟩ := hFs
      have h9 : lkeys.dropLast.length + 1 = lch.dropLast.length := by
        rw [List.length_dropLast, List.length_dropLast]; omega
      rw [h9, (take_drop_of_concat hcsplit).1] at hFl
      rw [h9, (take_drop_of_concat hcsplit).2] at hFr
      have hWlc2 : WF O (minKeys O) h (some lk) (some ls) lc2 := by
        simpa [Fence] using hFr
      left
      refine ⟨.internal lkeys.dropLast lch.dropLast, lk,
        .internal (ls :: ckeys) (lc2 :: cch),
        by simp only [tryBorrowLeft]; rw [if_pos hbw, hkeq, hceq], ?_, ?_, ?_,
        ubOK_trans (le_of_lt hlkls) hub⟩
      · refine ⟨?_, ?_, hFl⟩
        · rw [List.length_dropLast]; omega
        · rw [List.length_dropLast]; omega
      · refine ⟨?_, ?_, le_of_lt hlkls, hub, hWlc2, hcf⟩
        · simp only [List.length_cons]; omega
        · simp only [List.length_cons]; omega
      · cases lb with
        | none => exact trivial
        | some a => exact le_of_lt (hstrict a rfl)
    · right
      refine ⟨by simp [tryBorrowLeft, hbw],
        .internal (lkeys ++ ls :: ckeys) (lch ++ cch),
        by simp [tryMergeLeft], ?_, ?_,
        fence_append_sep hO lkeys lch hlf hub hcf⟩
      · simp only [List.length_append, List.length_cons]; omega
      · simp only [List.length_append, List.length_cons]; omega

theorem rebalLast_wf {V : Type} {O h : Nat} {lb ub : Option Nat} {ls : Nat}
    {lc c2 : BPNode V} (hO : 3 ≤ O)
    (hwlc : WF O (minKeys O) h lb (some ls) lc) (hlb : lbOK lb ls)
    (hub : ubOK ls ub)
    (hc : WF O (minKeys O - 1) h (some ls) ub c2)
    (hcnt : keyCount c2 < minKeys O) :
    Fence O h lb ub (rebalLast O lc ls c2).1 (rebalLast O lc ls c2).2 ∧
    ((rebalLast O lc ls c2).1.length = 1 ∨ (rebalLast O lc ls c2).1.length = 0) := by
  rcases pairLeft_wf hO hwlc hc hcnt hlb hub with
    ⟨lcN, lsN, cN, hBL, hw1, hw2, hl1, hu1⟩ | ⟨hBL, mg, hML, hwm⟩
  · unfold rebalLast
    rw [hBL]
    exact ⟨⟨hl1, hu1, hw1, hw2⟩, Or.inl rfl⟩
  · unfold rebalLast
    rw [hBL, hML]
    exact ⟨by simpa [Fence] using hwm, Or.inr rfl⟩

theorem rebalFirst_wf {V : Type} {O h : Nat} {lb ub : Option Nat} {s : Nat}
    {c2 : BPNode V} {ks : List Nat} {cs : List (BPNode V)} (hO : 3 ≤ O)
    (hc : WF O (minKeys O - 1) h lb (some s) c2) (hcnt : keyCount c2 < minKeys O)
    (hlbs : lbOK lb s) (hsub : ubOK s ub)
    (hf : Fence O h (some s) ub ks cs) :
    Fence O h lb ub (rebalFirst O c2 s ks cs).1 (rebalFirst O c2 s ks cs).2 ∧
    ((rebalFirst O c2 s ks cs).1.length = ks.length + 1 ∨
     (rebalFirst O c2 s ks cs).1.length = ks.length) := by
  have hm : 1 ≤ minKeys O := by unfold minKeys; omega
  match ks, cs with
  | ks, [] => exact absurd hf fence_nil_children
  | [], rc :: rest =>
    rcases rest with _ | ⟨r2, rest2⟩
    case cons => exact absurd hf (by simp [Fence])
    have hwrc : WF O (minKeys O) h (some s) ub rc := by simpa [Fence] using hf
    rcases pairRight_wf hO hc hcnt hwrc hlbs hsub with
      ⟨cN, sN, rcN, hBR, hw1, hw2, hl1, hu1⟩ | ⟨hBR, mg, hMR, hwm⟩
    · simp only [rebalFirst]
      rw [hBR]
      exact ⟨⟨hl1, hu1, hw1, hw2⟩, Or.inl rfl⟩
    · simp only [rebalFirst]
      rw [hBR, hMR]
      exact ⟨by simpa [Fence] using hwm, Or.inr rfl⟩
  | s2 :: ks2, rc :: rest =>
    obtain ⟨hl2, hu2, hwrc, hrest⟩ := hf
    obtain ⟨key, hk1, hk2⟩ := WF.exists_key hm hwrc
    have hss2 : s < s2 := lt_of_le_of_lt hk1 hk2
    rcases pairRight_wf hO hc hcnt hwrc hlbs hss2 with
      ⟨cN, sN, rcN, hBR, hw1, hw2, hl1, hu1⟩ | ⟨hBR, mg, hMR, hwm⟩
    · simp only [rebalFirst]
      rw [hBR]
      exact ⟨⟨hl1, ubOK_trans (le_of_lt hu1) hu2, hw1,
        le_of_lt hu1, hu2, hw2, hrest⟩, Or.inl rfl⟩
    · simp only [rebalFirst]
      rw [hBR, hMR]
      exact ⟨⟨lbOK_trans hlbs hl2, hu2, hwm, hrest⟩, Or.inr rfl⟩

theorem rebalMid_wf {V : Type} {O h : Nat} {lb ub : Option Nat} {ls s : Nat}
    {lc c2 : BPNode V} {ks : List Nat} {cs : List (BPNode V)} (hO : 3 ≤ O)
    (hwlc : WF O (minKeys O) h lb (some ls) lc) (hlb : lbOK lb ls)
    (hc : WF O (minKeys O - 1) h (some ls) (some s) c2)
    (hcnt : keyCount c2 < minKeys O)
    (hlss : ls < s) (hsub : ubOK s ub)
    (hf : Fence O h (some s) ub ks cs) :
    Fence O h lb ub (rebalMid O lc ls c2 s ks cs).1
      (rebalMid O lc ls c2 s ks cs).2 ∧
    ((rebalMid O lc ls c2 s ks cs).1.length = ks.length + 2 ∨
     (rebalMid O lc ls c2 s ks cs).1.length = ks.length + 1) := by
  have hm : 1 ≤ minKeys O := by unfold minKeys; omega
  have hlsub : ubOK ls ub := ubOK_trans (le_of_lt hlss) hsub
  match ks, cs with
  | ks, [] => exact absurd hf fence_nil_children
  | [], rc :: rest =>
    rcases rest with _ | ⟨r2, rest2⟩
    case cons => exact absurd hf (by simp [Fence])
    have hwrc : WF O (minKeys O) h (some s) ub rc := by simpa [Fence] using hf
    rcases pairRight_wf hO hc hcnt hwrc (le_of_lt hlss) hsub with
      ⟨cN, sN, rcN, hBR, hw1, hw2, hl1, hu1⟩ | ⟨hBR, mg, hMR, hwm⟩
    · simp only [rebalMid]
      rw [hBR]
      exact ⟨⟨hlb, hlsub, hwlc, hl1, hu1, hw1, hw2⟩, Or.inl rfl⟩
    · rcases pairLeft_wf hO hwlc hc hcnt hlb hlss with
        ⟨lcN, lsN, cN, hBL, hw1, hw2, hl1, hu1⟩ | ⟨hBL, mg2, hML, hwm2⟩
      · simp only [rebalMid]
        rw [hBR, hBL]
        exact ⟨⟨hl1, ubOK_trans (le_of_lt hu1) hsub, hw1,
          le_of_lt hu1, hsub, hw2, hwrc⟩, Or.inl rfl⟩
      · simp only [rebalMid]
        rw [hBR, hBL, hMR]
        exact ⟨⟨hlb, hlsub, hwlc, hwm⟩, Or.inr rfl⟩
  | s2 :: ks2, rc :: rest =>
    obtain ⟨hl2, hu2, hwrc, hrest⟩ := hf
    obtain ⟨key, hk1, hk2⟩ := WF.exists_key hm hwrc
    have hss2 : s < s2 := lt_of_le_of_lt hk1 hk2
    rcases pairRight_wf hO hc hcnt hwrc (le_of_lt hlss) hss2 with
      ⟨cN, sN, rcN, hBR, hw1, hw2, hl1, hu1⟩ | ⟨hBR, mg, hMR, hwm⟩
    · simp only [rebalMid]
      rw [hBR]
      exact ⟨⟨hlb, hlsub, hwlc, hl1,
        ubOK_trans (le_of_lt hu1) hu2, hw1,
        le_of_lt hu1, hu2, hw2, hrest⟩, Or.inl rfl⟩
    · rcases pairLeft_wf hO hwlc hc hcnt hlb hlss with
        ⟨lcN, lsN, cN, hBL, hw1, hw2, hl1, hu1⟩ | ⟨hBL, mg2, hML, hwm2⟩
      · simp only [rebalMid]
        rw [hBR, hBL]
        exact ⟨⟨hl1, ubOK_trans (le_of_lt hu1) hsub, hw1,
          le_of_lt hu1, hsub, hw2, hl2, hu2, hwrc, hrest⟩, Or.inl rfl⟩
      · simp only [rebalMid]
        rw [hBR, hBL, hMR]
        exact ⟨⟨hlb, hlsub, hwlc,
          le_trans (le_of_lt hlss) hl2, hu2, hwm, hrest⟩, Or.inr rfl⟩

theorem delGo_wf_of {V : Type} {O k h : Nat} (hO : 3 ≤ O)
    (hA : ∀ minC (lb ub : Option Nat) (n : BPNode V), 1 ≤ minC →
      WF O minC h lb ub n → WF O (minC - 1) h lb ub (deleteAux O k n)) :
    ∀ (ks : List Nat) (cs : List (BPNode V)) (lc : BPNode V) (ls : Nat)
      (lb ub : Option Nat),
      WF O (minKeys O) h lb (some ls) lc → lbOK lb ls → ubOK ls ub →
      Fence O h (some ls) ub ks cs →
      Fence O h lb ub (delGo O k lc ls ks cs).1 (delGo O k lc ls ks cs).2 ∧
      ((delGo O k lc ls ks cs).1.length = ks.length + 1 ∨
       (delGo O k lc ls ks cs).1.length = ks.length) := by
  have hm : 1 ≤ minKeys O := by unfold minKeys; omega
  intro ks
  induction ks with
  | nil =>
    intro cs lc ls lb ub hwlc hlb hub hf
    match cs with
    | [] => exact absurd hf fence_nil_children
    | c :: c2 :: cs3 => exact absurd hf (by simp [Fence])
    | [c] =>
      have hwc : WF O (minKeys O) h (some ls) ub c := by simpa [Fence] using hf
      have hdel := hA (minKeys O) (some ls) ub c hm hwc
      by_cases hu : underflow O (deleteAux O k c) = true
      · simp only [delGo]
        rw [if_pos hu]
        have hcnt : keyCount (deleteAux O k c) < minKeys O := by
          simpa [underflow] using hu
        exact rebalLast_wf hO hwlc hlb hub hdel hcnt
      · simp only [delGo]
        rw [if_neg hu]
        have hge : minKeys O ≤ keyCount (deleteAux O k c) := by
          simp only [underflow, decide_eq_true_eq] at hu; omega
        exact ⟨⟨hlb, hub, hwlc, WF_of_count hdel hge⟩, Or.inl rfl⟩
  | cons s ks2 ih =>
    intro cs lc ls lb ub hwlc hlb hub hf
    match cs with
    | [] => exact absurd hf fence_nil_children
    | c :: cs2 =>
      obtain ⟨hls_s, hub_s, hwc, hrest⟩ := hf
      obtain ⟨key, hk1, hk2⟩ := WF.exists_key hm hwc
      have hstrict : ls < s := lt_of_le_of_lt hk1 hk2
      by_cases hks : k < s
      · have hdel := hA (minKeys O) (some ls) (some s) c hm hwc
        by_cases hu : underflow O (deleteAux O k c) = true
        · simp only [delGo]
          rw [if_pos hks, if_pos hu]
          have hcnt : keyCount (deleteAux O k c) < minKeys O := by
            simpa [underflow] using hu
          have hR := rebalMid_wf hO hwlc hlb hdel hcnt hstrict hub_s hrest
          refine ⟨hR.1, ?_⟩
          rcases hR.2 with h9 | h9
          · left; rw [h9]; simp
          · right; rw [h9]; simp
        · simp only [delGo]
          rw [if_pos hks, if_neg hu]
          have hge : minKeys O ≤ keyCount (deleteAux O k c) := by
            simp only [underflow, decide_eq_true_eq] at hu; omega
          exact ⟨⟨hlb, hub, hwlc, hls_s, hub_s, WF_of_count hdel hge, hrest⟩,
            Or.inl rfl⟩
      · simp only [delGo]
        rw [if_neg hks]
        have hrec := ih cs2 c s (some ls) ub hwc hls_s hub_s hrest
        rcases hP : delGo O k c s ks2 cs2 with ⟨ksr, csr⟩
        rw [hP] at hrec
        refine ⟨?_, ?_⟩
        · show Fence O h lb ub (ls :: ksr) (lc :: csr)
          exact ⟨hlb, hub, hwlc, hrec.1⟩
        · show (ls :: ksr).length = (s :: ks2).length + 1 ∨
              (ls :: ksr).length = (s :: ks2).length
          rcases hrec.2 with h9 | h9
          · left; simp [h9]
          · right; simp [h9]

theorem delete_wf_all {V : Type} (O k : Nat) (hO : 3 ≤ O) :
    ∀ (h minC : Nat) (lb ub : Option Nat) (n : BPNode V), 1 ≤ minC →
      WF O minC h lb ub n → WF O (minC - 1) h lb ub (deleteAux O k n) := by
  have hm : 1 ≤ minKeys O := by unfold minKeys; omega
  intro h
  induction h with
  | zero =>
    intro minC lb ub n h1 hw
    cases n with
    | leaf kvs =>
      simp only [deleteAux]
      exact delete_leaf_wf hw
    | internal keys children => exact absurd hw (by simp [WF])
  | succ h ih =>
    intro minC lb ub n h1 hw
    cases n with
    | leaf kvs => exact absurd hw (by simp [WF])
    | internal keys children =>
      obtain ⟨hc1, hc2, hf⟩ := hw
      match keys, children with
      | [], children =>
        exfalso
        simp only [List.length_nil] at hc1
        omega
      | s :: ks, [] => exact absurd hf fence_nil_children
      | s :: ks, c :: cs =>
        obtain ⟨hlb_s, hub_s, hwc, hrest⟩ := hf
        simp only [List.length_cons] at hc1 hc2
        simp only [deleteAux]
        by_cases hks : k < s
        · rw [if_pos hks]
          have hdel := ih (minKeys O) lb (some s) c hm hwc
          by_cases hu : underflow O (deleteAux O k c) = true
          · rw [if_pos hu]
            have hcnt : keyCount (deleteAux O k c) < minKeys O := by
              simpa [underflow] using hu
            have hR := rebalFirst_wf hO hdel hcnt hlb_s hub_s hrest
            rcases hP : rebalFirst O (deleteAux O k c) s ks cs with ⟨ksr, csr⟩
            rw [hP] at hR
            refine ⟨?_, ?_, hR.1⟩
            · rcases hR.2 with h9 | h9 <;> omega
            · rcases hR.2 with h9 | h9 <;> omega
          · rw [if_neg hu]
            have hge : minKeys O ≤ keyCount (deleteAux O k c) := by
              simp only [underflow, decide_eq_true_eq] at hu; omega
            exact ⟨by simp only [List.length_cons]; omega,
              by simp only [List.length_cons]; omega,
              hlb_s, hub_s, WF_of_count hdel hge, hrest⟩
        · rw [if_neg hks]
          have hrec := delGo_wf_of hO
            (fun minC2 lb2 ub2 n2 => ih minC2 lb2 ub2 n2)
            ks cs c s lb ub hwc hlb_s hub_s hrest
          rcases hP : delGo O k c s ks cs with ⟨ksr, csr⟩
          rw [hP] at hrec
          refine ⟨?_, ?_, hrec.1⟩
          · rcases hrec.2 with h9 | h9 <;> omega
          · rcases hrec.2 with h9 | h9 <;> omega

theorem treeDelete_wf {V : Type} (O k : Nat) (hO : 3 ≤ O)
    (t : Option (BPNode V)) (hr : RootWF O t) : RootWF O (treeDelete O k t) := by
  have hm : 1 ≤ minKeys O := by unfold minKeys; omega
  cases t with
  | none => exact trivial
  | some root =>
    obtain ⟨h, hw⟩ := hr
    have hd := delete_wf_all O k hO h 1 none none root (le_refl 1) hw
    have hT : treeDelete O k (some root) =
        (match deleteAux O k root with
         | .leaf [] => none
         | .internal [] (c :: _) => some c
         | r => some r) := rfl
    rw [hT]
    cases hd9 : deleteAux O k root with
    | leaf kvs =>
      rw [hd9] at hd
      cases kvs with
      | nil => exact trivial
      | cons p t2 =>
        cases h with
        | zero =>
          obtain ⟨h1, h2, h3, h4⟩ := hd
          exact ⟨0, h1, h2, by simp, h4⟩
        | succ h2 => exact absurd hd (by simp [WF])
    | internal ks cs =>
      rw [hd9] at hd
      cases h with
      | zero => exact absurd hd (by simp [WF])
      | succ h2 =>
        obtain ⟨ha1, ha2, hf⟩ := hd
        cases ks with
        | nil =>
          cases cs with
          | nil => exact absurd hf fence_nil_children
          | cons c cs2 =>
            cases cs2 with
            | nil =>
              have hwc : WF O (minKeys O) h2 none none c := by
                simpa [Fence] using hf
              exact ⟨h2, WF_mono_minC hm hwc⟩
            | cons c2 cs3 => exact absurd hf (by simp [Fence])
        | cons s ks2 => exact ⟨h2 + 1, by simp, ha2, hf⟩

theorem applyOps_wf {V : Type} (O : Nat) (hO : 3 ≤ O) (ops : List (BOp V)) :
    RootWF O (applyOps O ops) := by
  suffices h : ∀ (t : Option (BPNode V)), RootWF O t →
      RootWF O (ops.foldl (fun t op =>
        match op with
        | .ins k v => treeInsert O k v t
        | .del k => treeDelete O k t) t) by
    exact h none trivial
  induction ops with
  | nil =>
    intro t ht
    simpa using ht
  | cons op ops ih =>
    intro t ht
    rw [List.foldl_cons]
    cases op with
    | ins k v => exact ih (treeInsert O k v t) (treeInsert_wf O k v hO t ht)
    | del k => exact ih (treeDelete O k t) (treeDelete_wf O k hO t ht)

theorem fence_leaves_of_child {V : Type} {O h : Nat}
    (hchild : ∀ (lb ub : Option Nat) (n : BPNode V),
      WF O (minKeys O) h lb ub n → nonRootLeavesOk (minKeys O) [n] = true) :
    ∀ (ks : List Nat) (cs : List (BPNode V)) (lb ub : Option Nat),
      Fence O h lb ub ks cs → nonRootLeavesOk (minKeys O) cs = true := by
  intro ks
  induction ks with
  | nil =>
    intro cs lb ub hf
    match cs with
    | [] => exact absurd hf fence_nil_children
    | c :: c2 :: cs3 => exact absurd hf (by simp [Fence])
    | [c] => exact hchild lb ub c (by simpa [Fence] using hf)
  | cons s ks2 ih =>
    intro cs lb ub hf
    match cs with
    | [] => exact absurd hf fence_nil_children
    | c :: cs2 =>
      obtain ⟨h1, h2, hwc, hrest⟩ := hf
      rw [nonRootLeavesOk_cons]
      rw [Bool.and_eq_true]
      exact ⟨hchild lb (some s) c hwc, ih cs2 (some s) ub hrest⟩

theorem wf_node_leaves {V : Type} {O : Nat} :
    ∀ (h : Nat) (lb ub : Option Nat) (n : BPNode V),
      WF O (minKeys O) h lb ub n → nonRootLeavesOk (minKeys O) [n] = true := by
  intro h
  induction h with
  | zero =>
    intro lb ub n hw
    cases n with
    | leaf kvs =>
      simp only [nonRootLeavesOk, Bool.and_true, decide_eq_true_eq]
      exact hw.2.2.1
    | internal ks cs => exact absurd hw (by simp [WF])
  | succ h ih =>
    intro lb ub n hw
    cases n with
    | leaf kvs => exact absurd hw (by simp [WF])
    | internal ks cs =>
      obtain ⟨h1, h2, hf⟩ := hw
      simp only [nonRootLeavesOk, Bool.and_true]
      exact fence_leaves_of_child (fun lb2 ub2 n2 => ih lb2 ub2 n2)
        ks cs lb ub hf

theorem rootwf_leaves {V : Type} {O : Nat} {t : Option (BPNode V)}
    (hr : RootWF O t) : leavesMinOcc (minKeys O) t = true := by
  cases t with
  | none => rfl
  | some n =>
    cases n with
    | leaf kvs => rfl
    | internal ks cs =>
      obtain ⟨h, hw⟩ := hr
      cases h with
      | zero => exact absurd hw (by simp [WF])
      | succ h2 =>
        obtain ⟨ha1, ha2, hf⟩ := hw
        show nonRootLeavesOk (minKeys O) cs = true
        exact fence_leaves_of_child
          (fun lb2 ub2 n2 => wf_node_leaves h2 lb2 ub2 n2)
          ks cs none none hf

theorem entries_fence_of_node {V : Type} {O h : Nat}
    (hN : ∀ (lb ub : Option Nat) (n : BPNode V), WF O (minKeys O) h lb ub n →
      ((nodeEntries n).map Prod.fst).Pairwise (· < ·) ∧
      (∀ p ∈ nodeEntries n, lbOK lb p.1 ∧ ubOK p.1 ub)) :
    ∀ (ks : List Nat) (cs : List (BPNode V)) (lb ub : Option Nat),
      Fence O h lb ub ks cs →
      ((entriesList cs).map Prod.fst).Pairwise (· < ·) ∧
      (∀ p ∈ entriesList cs, lbOK lb p.1 ∧ ubOK p.1 ub) := by
  intro ks
  induction ks with
  | nil =>
    intro cs lb ub hf
    match cs with
    | [] => exact absurd hf fence_nil_children
    | c :: c2 :: cs3 => exact absurd hf (by simp [Fence])
    | [c] =>
      have hc := hN lb ub c (by simpa [Fence] using hf)
      simpa [entriesList] using hc
  | cons s ks2 ih =>
    intro cs lb ub hf
    match cs with
    | [] => exact absurd hf fence_nil_children
    | c :: cs2 =>
      obtain ⟨h1, h2, hwc, hrest⟩ := hf
      have hc := hN lb (some s) c hwc
      have hr := ih cs2 (some s) ub hrest
      simp only [entriesList]
      constructor
      · rw [List.map_append, List.pairwise_append]
        refine ⟨hc.1, hr.1, ?_⟩
        intro x hx y hy
        obtain ⟨p, hp, rfl⟩ := List.mem_map.mp hx
        obtain ⟨q, hq, rfl⟩ := List.mem_map.mp hy
        exact lt_of_lt_of_le (hc.2 p hp).2 (hr.2 q hq).1
      · intro p hp
        rcases List.mem_append.mp hp with hL | hR
        · exact ⟨(hc.2 p hL).1, ubOK_trans (le_of_lt (hc.2 p hL).2) h2⟩
        · exact ⟨lbOK_trans h1 (hr.2 p hR).1, (hr.2 p hR).2⟩

theorem entries_node {V : Type} {O : Nat} :
    ∀ (h minC : Nat) (lb ub : Option Nat) (n : BPNode V),
      WF O minC h lb ub n →
      ((nodeEntries n).map Prod.fst).Pairwise (· < ·) ∧
      (∀ p ∈ nodeEntries n, lbOK lb p.1 ∧ ubOK p.1 ub) := by
  intro h
  induction h with
  | zero =>
    intro minC lb ub n hw
    cases n with
    | leaf kvs => exact ⟨hw.1, hw.2.1⟩
    | internal ks cs => exact absurd hw (by simp [WF])
  | succ h ih =>
    intro minC lb ub n hw
    cases n with
    | leaf kvs => exact absurd hw (by simp [WF])
    | internal ks cs =>
      exact entries_fence_of_node
        (fun lb2 ub2 n2 => ih (minKeys O) lb2 ub2 n2) ks cs lb ub hw.2.2

theorem entriesFrom_fence {V : Type} {O h lo : Nat}
    (hN : ∀ (minC : Nat) (lb ub : Option Nat) (n : BPNode V),
      WF O minC h lb ub n →
      entriesFrom n lo = (nodeEntries n).dropWhile (fun q => q.1 < lo)) :
    ∀ (ks : List Nat) (cs : List (BPNode V)) (lb ub : Option Nat),
      Fence O h lb ub ks cs →
      entriesFrom (.internal ks cs) lo =
        (entriesList cs).dropWhile (fun q => q.1 < lo) := by
  intro ks
  induction ks with
  | nil =>
    intro cs lb ub hf
    match cs with
    | [] => exact absurd hf fence_nil_children
    | c :: c2 :: cs3 => exact absurd hf (by simp [Fence])
    | [c] =>
      have hwc : WF O (minKeys O) h lb ub c := by simpa [Fence] using hf
      simp only [entriesFrom, entriesList, List.append_nil]
      exact hN (minKeys O) lb ub c hwc
  | cons s ks2 ih =>
    intro cs lb ub hf
    match cs with
    | [] => exact absurd hf fence_nil_children
    | c :: cs2 =>
      obtain ⟨h1, h2, hwc, hrest⟩ := hf
      have hcb := entries_node h (minKeys O) lb (some s) c hwc
      simp only [entriesFrom, entriesList]
      by_cases hslo : s ≤ lo
      · rw [if_pos hslo]
        rw [dropWhile_append_all _ (nodeEntries c) (entriesList cs2)
          (fun x hx => by
            have h9 : x.1 < s := (hcb.2 x hx).2
            simp only [decide_eq_true_eq]
            omega)]
        exact ih cs2 (some s) ub hrest
      · rw [if_neg hslo]
        have hrb := entries_fence_of_node
          (fun lb2 ub2 n2 => entries_node h (minKeys O) lb2 ub2 n2)
          ks2 cs2 (some s) ub hrest
        rw [dropWhile_append_keep _ (nodeEntries c) (entriesList cs2)
          (fun y hy => by
            have h9 : s ≤ y.1 := (hrb.2 y hy).1
            simp only [decide_eq_true_eq]
            omega)]
        rw [hN (minKeys O) lb (some s) c hwc]

theorem entriesFrom_node {V : Type} {O lo : Nat} :
    ∀ (h minC : Nat) (lb ub : Option Nat) (n : BPNode V),
      WF O minC h lb ub n →
      entriesFrom n lo = (nodeEntries n).dropWhile (fun q => q.1 < lo) := by
  intro h
  induction h with
  | zero =>
    intro minC lb ub n hw
    cases n with
    | leaf kvs =>
      simp only [entriesFrom, nodeEntries]
      exact bisectLeft_drop kvs lo
    | internal ks cs => exact absurd hw (by simp [WF])
  | succ h ih =>
    intro minC lb ub n hw
    cases n with
    | leaf kvs => exact absurd hw (by simp [WF])
    | internal ks cs =>
      have h9 := entriesFrom_fence
        (fun minC2 lb2 ub2 n2 => ih minC2 lb2 ub2 n2) ks cs lb ub hw.2.2
      simpa [nodeEntries] using h9

theorem searchAux_fence {V : Type} {O h k : Nat}
    (hN : ∀ (minC : Nat) (lb ub : Option Nat) (n : BPNode V),
      WF O minC h lb ub n →
      searchAux n k =
        (match ((nodeEntries n).dropWhile (fun q => q.1 < k)).head? with
         | some p => if p.1 = k then some p.2 else none
         | none => none)) :
    ∀ (ks : List Nat) (cs : List (BPNode V)) (lb ub : Option Nat),
      Fence O h lb ub ks cs →
      searchAux (.internal ks cs) k =
        (match ((entriesList cs).dropWhile (fun q => q.1 < k)).head? with
         | some p => if p.1 = k then some p.2 else none
         | none => none) := by
  intro ks
  induction ks with
  | nil =>
    intro cs lb ub hf
    match cs with
    | [] => exact absurd hf fence_nil_children
    | c :: c2 :: cs3 => exact absurd hf (by simp [Fence])
    | [c] =>
      have hwc : WF O (minKeys O) h lb ub c := by simpa [Fence] using hf
      simp only [searchAux, entriesList, List.append_nil]
      exact hN (minKeys O) lb ub c hwc
  | cons s ks2 ih =>
    intro cs lb ub hf
    match cs with
    | [] => exact absurd hf fence_nil_children
    | c :: cs2 =>
      obtain ⟨h1, h2, hwc, hrest⟩ := hf
      have hcb := entries_node h (minKeys O) lb (some s) c hwc
      have hrb := entries_fence_of_node
        (fun lb2 ub2 n2 => entries_node h (minKeys O) lb2 ub2 n2)
        ks2 cs2 (some s) ub hrest
      simp only [searchAux, entriesList]
      by_cases hsk : s ≤ k
      · rw [if_pos hsk]
        rw [dropWhile_append_all _ (nodeEntries c) (entriesList cs2)
          (fun x hx => by
            have h9 : x.1 < s := (hcb.2 x hx).2
            simp only [decide_eq_true_eq]
            omega)]
        exact ih cs2 (some s) ub hrest
      · rw [if_neg hsk]
        rw [dropWhile_append_keep _ (nodeEntries c) (entriesList cs2)
          (fun y hy => by
            have h9 : s ≤ y.1 := (hrb.2 y hy).1
            simp only [decide_eq_true_eq]
            omega)]
        rw [hN (minKeys O) lb (some s) c hwc]
        cases hdw : (nodeEntries c).dropWhile (fun q => q.1 < k) with
        | cons p tl => simp
        | nil =>
          simp only [List.nil_append]
          cases hh : (entriesList cs2).head? with
          | none => simp
          | some q =>
            have hqm : q ∈ entriesList cs2 := by
              cases hel : entriesList cs2 with
              | nil => rw [hel] at hh; simp at hh
              | cons q2 tl2 =>
                rw [hel] at hh
                simp only [List.head?_cons, Option.some.injEq] at hh
                rw [hh]
                simp
            have hsq : s ≤ q.1 := (hrb.2 q hqm).1
            have hqk : ¬ q.1 = k := by omega
            simp [hqk]

theorem searchAux_node {V : Type} {O k : Nat} :
    ∀ (h minC : Nat) (lb ub : Option Nat) (n : BPNode V),
      WF O minC h lb ub n →
      searchAux n k =
        (match ((nodeEntries n).dropWhile (fun q => q.1 < k)).head? with
         | some p => if p.1 = k then some p.2 else none
         | none => none) := by
  intro h
  induction h with
  | zero =>
    intro minC lb ub n hw
    cases n with
    | leaf kvs =>
      simp only [searchAux, nodeEntries]
      rw [bisectLeft_drop kvs k]
    | internal ks cs => exact absurd hw (by simp [WF])
  | succ h ih =>
    intro minC lb ub n hw
    cases n with
    | leaf kvs => exact absurd hw (by simp [WF])
    | internal ks cs =>
      have h9 := searchAux_fence
        (fun minC2 lb2 ub2 n2 => ih minC2 lb2 ub2 n2) ks cs lb ub hw.2.2
      simpa [nodeEntries] using h9

theorem mem_iff_searchAux {V : Type} {O k h minC : Nat} {lb ub : Option Nat}
    {n : BPNode V} (hw : WF O minC h lb ub n) (v : V) :
    (k, v) ∈ nodeEntries n ↔ searchAux n k = some v := by
  have hs := (entries_node h minC lb ub n hw).1
  rw [searchAux_node h minC lb ub n hw]
  rw [sorted_dropWhile_eq_filter (nodeEntries n) k hs]
  constructor
  · intro hm
    have hmf : (k, v) ∈ (nodeEntries n).filter (fun q => k ≤ q.1) :=
      List.mem_filter.mpr ⟨hm, by simp⟩
    cases hf : (nodeEntries n).filter (fun q => k ≤ q.1) with
    | nil => rw [hf] at hmf; cases hmf
    | cons q tl =>
      rw [hf] at hmf
      simp only [List.head?_cons]
      rcases List.mem_cons.mp hmf with heq | htl
      · rw [← heq]; simp
      · exfalso
        have hfs : (((nodeEntries n).filter (fun q => k ≤ q.1)).map
            Prod.fst).Pairwise (· < ·) :=
          hs.sublist ((List.filter_sublist _).map Prod.fst)
        rw [hf, List.map_cons, List.pairwise_cons] at hfs
        have hqk : q.1 < k := hfs.1 k (List.mem_map.mpr ⟨(k, v), htl, rfl⟩)
        have hq : q ∈ (nodeEntries n).filter (fun r => k ≤ r.1) := by
          rw [hf]; simp
        have hkq : k ≤ q.1 := by
          have := (List.mem_filter.mp hq).2
          simpa using this
        omega
  · intro hse
    cases hf : (nodeEntries n).filter (fun q => k ≤ q.1) with
    | nil => rw [hf] at hse; simp at hse
    | cons q tl =>
      rw [hf] at hse
      simp only [List.head?_cons] at hse
      by_cases hqk : q.1 = k
      · rw [if_pos hqk] at hse
        injection hse with hv
        have hq : q ∈ (nodeEntries n).filter (fun r => k ≤ r.1) := by
          rw [hf]; simp
        have hqm : q ∈ nodeEntries n := (List.mem_filter.mp hq).1
        have heq2 : q = (k, v) := Prod.ext hqk hv
        rw [← heq2]; exact hqm
      · rw [if_neg hqk] at hse; cases hse

/-- C3: counterexample to the claimed ceiling bound.  The claim asserts every
non-root leaf keeps at least ⌈(O−1)/2⌉ keys after a delete; for order 4 that
is 2, but inserting 1..4 and deleting 1 leaves a non-root leaf with a single
key (the code enforces only the floor `min_keys = (order - 1) // 2`,
bplus_tree.py line 54). -/
theorem bplus_min_occupancy_counterexample :
    leavesMinOcc ((4 - 1 + 1) / 2)
      (applyOps 4 [BOp.ins 1 1, BOp.ins 2 2, BOp.ins 3 3, BOp.ins 4 4,
        BOp.del 1]) = false := by
  simp +decide [applyOps, treeInsert, insertAux, insGo, splitLeaf,
    splitInternal, bisectLeft, treeDelete, deleteAux, delGo, eraseKeyKvs,
    underflow, keyCount, minKeys, rebalFirst, rebalMid, rebalLast,
    tryBorrowRight, tryBorrowLeft, tryMergeRight, tryMergeLeft, leavesMinOcc,
    nonRootLeavesOk]

/-- C3 amended: after any sequence of inserts and deletes on a B+ tree of
order O ≥ 3, every non-root leaf holds at least ⌊(O−1)/2⌋ = `min_keys` keys
(the underflow repair follows the code's borrow-right, borrow-left,
merge-right, merge-left order embedded in `rebalFirst`/`rebalMid`/
`rebalLast`); only the root is exempt. -/
theorem bplus_min_occupancy_floor {V : Type} (O : Nat) (hO : 3 ≤ O)
    (ops : List (BOp V)) :
    leavesMinOcc (minKeys O) (applyOps O ops) = true :=
  rootwf_leaves (applyOps_wf O hO ops)

theorem bplus_min_occupancy_floor_witness :
    3 ≤ 4 ∧ leavesMinOcc (minKeys 4)
      (applyOps 4 [BOp.ins (5 : Nat) (7 : Nat), BOp.ins 6 8,
        BOp.del 5]) = true :=
  ⟨by decide, bplus_min_occupancy_floor 4 (by decide)
    [BOp.ins 5 7, BOp.ins 6 8, BOp.del 5]⟩

/-- C7: on every tree reachable by inserts and deletes (order O ≥ 3) and all
bounds lo ≤ hi, `range_query(lo, hi)` returns exactly the stored pairs with
lo ≤ k ≤ hi (a pair is in the output iff `search` finds it and its key lies
in the inclusive bounds), in strictly ascending key order. -/
theorem bplus_range_query_correct {V : Type} (O lo hi : Nat) (hO : 3 ≤ O)
    (hlh : lo ≤ hi) (ops : List (BOp V)) :
    (∀ p : Nat × V, p ∈ rangeQuery (applyOps O ops) lo hi ↔
      (treeSearch (applyOps O ops) p.1 = some p.2 ∧ lo ≤ p.1 ∧ p.1 ≤ hi)) ∧
    ((rangeQuery (applyOps O ops) lo hi).map Prod.fst).Pairwise (· < ·) := by
  have hr := applyOps_wf O hO ops
  cases ht : applyOps O ops with
  | none =>
    constructor
    · intro p
      simp [rangeQuery, treeSearch]
    · simp [rangeQuery]
  | some n =>
    rw [ht] at hr
    obtain ⟨h, hw⟩ := hr
    have hs := (entries_node h 1 none none n hw).1
    have hEF := @entriesFrom_node V O lo h 1 none none n hw
    have hs2 : (((nodeEntries n).filter (fun q => lo ≤ q.1)).map
        Prod.fst).Pairwise (· < ·) :=
      hs.sublist ((List.filter_sublist _).map Prod.fst)
    have hrw : rangeQuery (some n) lo hi =
        ((nodeEntries n).filter (fun q => lo ≤ q.1)).filter
          (fun q => q.1 ≤ hi) := by
      show (entriesFrom n lo).takeWhile (fun p => p.1 ≤ hi) = _
      rw [hEF, sorted_dropWhile_eq_filter _ lo hs,
        sorted_takeWhile_eq_filter _ hi hs2]
    constructor
    · intro p
      rw [hrw]
      simp only [List.mem_filter, decide_eq_true_eq]
      constructor
      · rintro ⟨⟨hm, hlo2⟩, hhi2⟩
        refine ⟨?_, hlo2, hhi2⟩
        show searchAux n p.1 = some p.2
        exact (mem_iff_searchAux hw p.2).mp (by simpa using hm)
      · rintro ⟨hse, hlo2, hhi2⟩
        have hm : (p.1, p.2) ∈ nodeEntries n :=
          (mem_iff_searchAux hw p.2).mpr hse
        exact ⟨⟨by simpa using hm, hlo2⟩, hhi2⟩
    · rw [hrw]
      exact hs.sublist
        (((List.filter_sublist _).trans (List.filter_sublist _)).map Prod.fst)

theorem bplus_range_query_witness :
    3 ≤ 4 ∧ 2 ≤ 10 ∧
    ((3, 30) ∈ rangeQuery
        (applyOps 4 [BOp.ins (3 : Nat) (30 : Nat), BOp.ins 5 50,
          BOp.ins 12 120]) 2 10 ↔
      (treeSearch (applyOps 4 [BOp.ins (3 : Nat) (30 : Nat), BOp.ins 5 50,
          BOp.ins 12 120]) 3 = some 30 ∧ 2 ≤ 3 ∧ 3 ≤ 10)) :=
  ⟨by decide, by decide,
    (bplus_range_query_correct 4 2 10 (by decide) (by decide)
      [BOp.ins 3 30, BOp.ins 5 50, BOp.ins 12 120]).1 (3, 30)⟩

end DHT
